import Mathlib

/-!
# pomo: a terminal Pomodoro timer (verification development)

Shallow embedding of `main.go`.

Conventions of the embedding.

* A Go `string` is a `List Char` (its sequence of Unicode code points); the
  texts handled here come from text fields and command-line flags.
* `time.Duration` is a signed 64-bit count of nanoseconds, embedded as an
  `Int`.  The durations of a plan come from the user's text and can be any
  64-bit value, so the arithmetic on them is wrapped with `wrap64`: the
  product with `time.Minute` in `parseDuration`, the subtractions of
  `updateTick` (`remainingAt`) and of `viewTimer` (`progressPercent`), and the
  products of `viewComplete`.  `int` is the 64-bit Go `int`.
* `time.Time` values are clock readings in nanoseconds (`Int`).  Every event
  handler is given the reading `now` of the clock at the moment it runs, so
  `time.Since t` is `now - t` and `time.Now ()` is `now`.  (`time.Since`
  saturates at about 292 years, a span that differences of readings of the
  clock of one run, and the pauses summed from them, do not reach.)
* The functions of the Go standard library that `main.go` calls are part of
  the embedding: `strconv.Atoi` and `time.ParseDuration` follow the standard
  library's own sources, loop by loop and with their overflow checks;
  `strings.TrimSpace` follows its documented behaviour (leading and trailing
  white space, as defined by Unicode, removed).
* The only floating point computation, the fractional part of a component of
  `time.ParseDuration`, is a parameter (`FloatFrac`) of the embedding.
-/

namespace Pomo

/-! ## Machine integers and durations -/

/-- Two's complement wrap-around of a mathematical integer to `int64`. -/
def wrap64 (x : Int) : Int := (x + 2 ^ 63) % 2 ^ 64 - 2 ^ 63

/-- Go constant `time.Second`, in nanoseconds. -/
def Second : Int := 1000000000

/-- Go constant `time.Minute`, in nanoseconds. -/
def Minute : Int := 60 * Second

/-- Go constant `time.Hour`, in nanoseconds. -/
def Hour : Int := 60 * Minute

/-! ## Characters -/

/-- The byte test `'0' <= c && c <= '9'`. -/
def isDigit (c : Char) : Bool := decide (48 ≤ c.toNat) && decide (c.toNat ≤ 57)

/-- The value `c - '0'` of a digit. -/
def digitVal (c : Char) : Nat := c.toNat - 48

/-- Go `unicode.IsSpace`: the Latin-1 spaces and the `White_Space` table. -/
def IsSpace (c : Char) : Bool :=
  let r := c.toNat
  decide (9 ≤ r ∧ r ≤ 13) || decide (r = 32) || decide (r = 0x85) || decide (r = 0xA0) ||
  decide (r = 0x1680) || decide (0x2000 ≤ r ∧ r ≤ 0x200A) || decide (r = 0x2028) ||
  decide (r = 0x2029) || decide (r = 0x202F) || decide (r = 0x205F) || decide (r = 0x3000)

/-- Go `strings.TrimSpace`: all leading and trailing white space removed. -/
def TrimSpace (s : List Char) : List Char :=
  ((s.dropWhile IsSpace).reverse.dropWhile IsSpace).reverse

/-- Go `len(s)`: the number of bytes of the UTF-8 encoding. -/
def byteLen (s : List Char) : Nat := (s.map Char.utf8Size).sum

/-! ## strconv.Atoi (64-bit `int`) -/

/-- The digit loop of the fast path of `strconv.Atoi`; `none` is a syntax error.
With fewer than 19 bytes the accumulator stays below `10 ^ 18`, so it never
leaves the range of `int`. -/
def Atoi.fast : List Char → Int → Option Int
  | [], n => some n
  | c :: cs, n => if isDigit c then Atoi.fast cs (n * 10 + digitVal c) else none

/-- Go constant `maxUint64`. -/
def maxUint64 : Nat := 2 ^ 64 - 1

/-- The digit loop of `strconv.ParseUint s 10 64`; `none` is a syntax or range
error.  A byte that is not a decimal digit is a syntax error (a letter has a
digit value of at least 10, the base). -/
def ParseUint.loop : List Char → Nat → Option Nat
  | [], n => some n
  | c :: cs, n =>
    if isDigit c then
      if n ≥ maxUint64 / 10 + 1 then none
      else
        let n1 := n * 10 + digitVal c
        if n1 > maxUint64 then none else ParseUint.loop cs n1
    else none

/-- Go `strconv.ParseUint s 10 64`, with `none` for an error. -/
def ParseUint (s : List Char) : Option Nat :=
  if s = [] then none else ParseUint.loop s 0

/-- Go `strconv.ParseInt s 10 0`, with `none` for an error (syntax or range). -/
def ParseInt (s : List Char) : Option Int :=
  match s with
  | [] => none
  | c0 :: rest =>
    let neg := decide (c0 = '-')
    let body := if c0 = '+' ∨ c0 = '-' then rest else s
    match ParseUint body with
    | none => none
    | some un =>
      if !neg && decide (un ≥ 2 ^ 63) then none
      else if neg && decide (un > 2 ^ 63) then none
      else some (if neg then -(un : Int) else (un : Int))

/-- Go `strconv.Atoi`, with `none` for an error. -/
def Atoi (s : List Char) : Option Int :=
  let sLen := byteLen s
  if 0 < sLen ∧ sLen < 19 then
    match s with
    | [] => none
    | c0 :: rest =>
      let signed := decide (c0 = '-' ∨ c0 = '+')
      if signed && rest.isEmpty then none
      else
        match Atoi.fast (if signed then rest else s) 0 with
        | none => none
        | some n => some (if c0 = '-' then -n else n)
  else ParseInt s

/-! ## time.ParseDuration -/

/-- The floating point expression `uint64 (float64 f * (float64 unit / scale))`
of `time.ParseDuration`, as a function of `f`, `unit` and the number of times
`scale` was multiplied by ten. -/
abbrev FloatFrac := Nat → Nat → Nat → Nat

/-- Go `time.leadingInt`: consumes the leading digits; `none` on overflow. -/
def leadingInt : List Char → Nat → Option (Nat × List Char)
  | [], x => some (x, [])
  | c :: cs, x =>
    if isDigit c then
      if x > 2 ^ 63 / 10 then none
      else
        let x1 := x * 10 + digitVal c
        if x1 > 2 ^ 63 then none else leadingInt cs x1
    else some (x, c :: cs)

/-- Go `time.leadingFraction`: consumes the leading digits, accumulating while
no overflow has been seen; returns the value, the number of decimal places
accumulated in `scale`, and the rest. -/
def leadingFraction : List Char → Nat → Nat → Bool → Nat × Nat × List Char
  | [], x, k, _ => (x, k, [])
  | c :: cs, x, k, overflow =>
    if isDigit c then
      if overflow then leadingFraction cs x k true
      else if x > (2 ^ 63 - 1) / 10 then leadingFraction cs x k true
      else
        let y := x * 10 + digitVal c
        if y > 2 ^ 63 then leadingFraction cs x k true
        else leadingFraction cs y (k + 1) false
    else (x, k, c :: cs)

/-- Go `time.unitMap`, in nanoseconds. -/
def unitMap (u : List Char) : Option Nat :=
  if u = ['n', 's'] then some 1
  else if u = ['u', 's'] then some 1000
  else if u = ['µ', 's'] then some 1000
  else if u = ['μ', 's'] then some 1000
  else if u = ['m', 's'] then some 1000000
  else if u = ['s'] then some 1000000000
  else if u = ['m'] then some 60000000000
  else if u = ['h'] then some 3600000000000
  else none

/-- The test that ends a unit: `c == '.' || '0' <= c && c <= '9'`. -/
def unitEnd (c : Char) : Bool := decide (c = '.') || isDigit c

/-- Result of running the component loop of `time.ParseDuration`. -/
inductive LoopResult where
  | total (d : Nat)
  | invalid
  | exhausted
  deriving DecidableEq, Repr

/-- The block `Consume (\.[0-9]*)?` of a round of `time.ParseDuration`: after
a leading `.` the fraction digits are consumed.  Returns `f`, the number of
decimal places in `scale`, the rest of the text, and `post` (whether any
fraction digit was consumed). -/
def ParseDuration.fraction (s1 : List Char) : Nat × Nat × List Char × Bool :=
  match s1 with
  | [] => (0, 0, s1, false)
  | c1 :: s2 =>
    if c1 = '.' then
      let r := leadingFraction s2 0 0 false
      (r.1, r.2.1, r.2.2, decide (s2.length ≠ r.2.2.length))
    else (0, 0, s1, false)

/-- One round of the loop `for s != ""` of `time.ParseDuration`, with
accumulator `d` (a `uint64`): consumes a number, an optional fraction and a
unit, and returns the rest of the text and the new accumulator; `none` is an
error return. -/
def ParseDuration.round (ff : FloatFrac) (s : List Char) (d : Nat) : Option (List Char × Nat) :=
  match s with
  | [] => none
  | c :: _ =>
    if !(decide (c = '.') || isDigit c) then none
    else
      match leadingInt s 0 with
      | none => none
      | some (v, s1) =>
        let pre := decide (s.length ≠ s1.length)
        let fr := ParseDuration.fraction s1
        let f := fr.1
        let k := fr.2.1
        let s3 := fr.2.2.1
        let post := fr.2.2.2
        if !pre && !post then none
        else
          let u := s3.takeWhile (fun c => !unitEnd c)
          let s4 := s3.dropWhile (fun c => !unitEnd c)
          if u.isEmpty then none
          else
            match unitMap u with
            | none => none
            | some unit =>
              if v > 2 ^ 63 / unit then none
              else
                let v1 := v * unit
                let v2 := if f > 0 then v1 + ff f unit k else v1
                if f > 0 ∧ v2 > 2 ^ 63 then none
                else
                  let d1 := (d + v2) % 2 ^ 64
                  if d1 > 2 ^ 63 then none else some (s4, d1)

/-- The loop `for s != ""` of `time.ParseDuration`.  The first argument bounds
the number of rounds; `exhausted` is returned when it does not suffice (it
always suffices when it is at least the length of the text, see
`ParseDuration.loop_fuel`). -/
def ParseDuration.loop (ff : FloatFrac) : Nat → List Char → Nat → LoopResult
  | _, [], d => .total d
  | 0, _ :: _, _ => .exhausted
  | fuel + 1, c :: cs, d =>
    match ParseDuration.round ff (c :: cs) d with
    | none => .invalid
    | some (s4, d1) => ParseDuration.loop ff fuel s4 d1

/-- Go `time.ParseDuration`, with `none` for an error. -/
def ParseDuration (ff : FloatFrac) (orig : List Char) : Option Int :=
  let neg := decide (orig.head? = some '-')
  let s := match orig with
    | c :: cs => if c = '-' ∨ c = '+' then cs else orig
    | [] => orig
  if s = ['0'] then some 0
  else if s = [] then none
  else
    match ParseDuration.loop ff s.length s 0 with
    | .total d =>
      if neg then some (-(d : Int))
      else if d > 2 ^ 63 - 1 then none
      else some (d : Int)
    | .invalid => none
    | .exhausted => none

/-! ## parseDuration -/

/-- Source `parseDuration`: trims, rejects the empty text, reads a bare integer
as minutes and otherwise calls `time.ParseDuration`; `none` is an error. -/
def parseDuration (ff : FloatFrac) (s : List Char) : Option Int :=
  let s := TrimSpace s
  if s = [] then none
  else
    match Atoi s with
    | some num => some (wrap64 (num * Minute))
    | none => ParseDuration ff s

/-! ## Decimal numerals (specification side) -/

/-- The value of the decimal digits `ds` read after the value `acc`. -/
def decVal (acc : Nat) : List Char → Nat
  | [] => acc
  | c :: cs => decVal (acc * 10 + digitVal c) cs

/-- The value of a plain decimal numeral. -/
def decimalValue (ds : List Char) : Nat := decVal 0 ds

/-- The text is a decimal integer: an optional sign and at least one digit. -/
def isInteger (t : List Char) : Bool :=
  match t with
  | [] => false
  | c :: cs =>
    if c = '+' ∨ c = '-' then !cs.isEmpty && cs.all isDigit
    else t.all isDigit

/-- The value of a decimal integer. -/
def intValue (t : List Char) : Int :=
  match t with
  | [] => 0
  | c :: cs =>
    if c = '-' then -(decimalValue cs : Int)
    else if c = '+' then (decimalValue cs : Int)
    else (decimalValue t : Int)

/-- The text does not begin with a digit. -/
def noDigitHead (s : List Char) : Prop := ∀ c ∈ s.head?, isDigit c = false

/-! ## The duration syntax (specification side) -/

/-- One component of a duration text: a decimal number with an optional
fraction (at least one digit in all) followed by a unit of `unitMap`. -/
inductive Component : List Char → Prop where
  | mk (int frac u : List Char) (dot : Bool) (unit : Nat)
      (hint : int.all isDigit = true) (hfrac : frac.all isDigit = true)
      (hdot : dot = false → frac = []) (hsome : int ≠ [] ∨ frac ≠ [])
      (hunit : unitMap u = some unit) :
      Component (int ++ ((if dot then '.' :: frac else []) ++ u))

/-- A non-empty sequence of components. -/
inductive Components : List Char → Prop where
  | one (c : List Char) (h : Component c) : Components c
  | cons (c rest : List Char) (h : Component c) (hrest : Components rest) :
      Components (c ++ rest)

/-- A well-formed unit-suffixed duration: an optional sign followed by `0` or
by a sequence of components, such as `300ms`, `-1.5h` or `2h45m`. -/
def WellFormedDuration (t : List Char) : Prop :=
  ∃ body, (t = body ∨ t = '+' :: body ∨ t = '-' :: body) ∧ (body = ['0'] ∨ Components body)

/-! ## The model and its events -/

/-- The phase constants `StateInput`, `StateTimer`, `StateBreak`, `StateComplete`. -/
inductive State where
  | StateInput
  | StateTimer
  | StateBreak
  | StateComplete
  deriving DecidableEq, Repr

export State (StateInput StateTimer StateBreak StateComplete)

/-- Commands returned to the runtime: `nil`, `tick ()`, `tea.Quit`,
`textinput.Blink`, or a command produced by a text field. -/
inductive Cmd where
  | nil
  | tick
  | Quit
  | Blink
  | field (n : Nat)
  deriving DecidableEq, Repr

/-- Messages delivered to `Update`: a key (by its `String ()`), a window size,
a tick, or any other message of the runtime. -/
inductive Msg where
  | KeyMsg (key : String)
  | WindowSizeMsg (Width Height : Int)
  | tickMsg (t : Int)
  | other
  deriving DecidableEq, Repr

/-- The part of `textinput.Model` the program reads: the text and the focus. -/
structure TextInput where
  value : List Char
  focus : Bool
  deriving DecidableEq, Repr

/-- A desktop notification handed to `notify-send`. -/
structure Notification where
  title : String
  message : String
  deriving DecidableEq, Repr

/-- Source `model`. -/
structure model where
  state : State
  timerDuration : Int
  breakDuration : Int
  sessions : Int
  currentSession : Int
  timerInput : TextInput
  breakInput : TextInput
  sessionInput : TextInput
  activeInput : Int
  progressWidth : Int
  startTime : Int
  totalTime : Int
  remaining : Int
  isBreak : Bool
  isPaused : Bool
  pausedTime : Int
  lastPauseTime : Int
  width : Int
  height : Int
  deriving DecidableEq, Repr

/-- What the program takes from outside: the key handling of a text field
(`textinput.Model.Update`) and the floating point fraction of
`time.ParseDuration`. -/
structure Env where
  fieldUpdate : TextInput → Msg → TextInput × Cmd
  ff : FloatFrac

/-- What one call of `Update` yields: the new model, the command, and the
notifications sent while handling the message. -/
structure Result where
  m : model
  cmd : Cmd
  notes : List Notification

/-- Source `initialModel`. -/
def initialModel : model :=
  { state := StateInput, timerDuration := 0, breakDuration := 0, sessions := 0,
    currentSession := 0,
    timerInput := { value := [], focus := true },
    breakInput := { value := [], focus := false },
    sessionInput := { value := [], focus := false },
    activeInput := 0, progressWidth := 50, startTime := 0, totalTime := 0,
    remaining := 0, isBreak := false, isPaused := false, pausedTime := 0,
    lastPauseTime := 0, width := 0, height := 0 }

/-- Source `Init`: the first command. -/
def Init (m : model) : Cmd := if m.state = StateTimer then Cmd.tick else Cmd.Blink

/-- Source `min`. -/
def min (a b : Int) : Int := if a < b then a else b

/-- Source `startTimer`. -/
def startTimer (now : Int) (m : model) : model :=
  { m with isBreak := false, isPaused := false, pausedTime := 0,
           totalTime := m.timerDuration, startTime := now,
           remaining := m.timerDuration }

/-- Source `startBreak`. -/
def startBreak (now : Int) (m : model) : model :=
  { m with isBreak := true, isPaused := false, pausedTime := 0,
           totalTime := m.breakDuration, startTime := now,
           remaining := m.breakDuration }

/-- Source `sendNotification`: the title and message passed to `notify-send`.
The two message literals are those of the source file, code point by code
point: `Great work! ` is followed by U+F8FF, U+00FC, U+00E9, U+00E2 and
`break! ` by U+201A, U+00F2, U+00EF. -/
def sendNotification (m : model) : Notification :=
  if m.isBreak then
    { title := "Break Complete!",
      message :=
        if m.currentSession + 1 ≥ m.sessions then "All sessions completed! Great work! üéâ"
        else "Break over! Starting session " ++ toString (m.currentSession + 2) ++ "/" ++
          toString m.sessions }
  else
    { title := "Work Session Complete!",
      message := "Session " ++ toString (m.currentSession + 1) ++ "/" ++
        toString m.sessions ++ " done! Time for a break! ‚òï" }

/-- The remaining time that `updateTick` computes at clock reading `now`:
`elapsed := time.Since (m.startTime) - m.pausedTime` and then
`m.totalTime - elapsed`, both subtractions of `time.Duration` values, which are
64-bit and wrap around. -/
def remainingAt (now : Int) (m : model) : Int :=
  wrap64 (m.totalTime - wrap64 (now - m.startTime - m.pausedTime))

/-- Source `updateTick`. -/
def updateTick (now : Int) (m : model) : Result :=
  let m := { m with remaining := remainingAt now m }
  if m.remaining ≤ 0 then
    let note := sendNotification m
    if m.isBreak then
      let m := { m with currentSession := m.currentSession + 1 }
      if m.currentSession ≥ m.sessions then
        { m := { m with state := StateComplete }, cmd := .nil, notes := [note] }
      else
        { m := startTimer now { m with state := StateTimer }, cmd := .tick, notes := [note] }
    else
      { m := startBreak now { m with state := StateBreak }, cmd := .tick, notes := [note] }
  else
    { m := m, cmd := .tick, notes := [] }

/-- Source `updateTimer`. -/
def updateTimer (now : Int) (m : model) (key : String) : Result :=
  if key = "ctrl+c" ∨ key = "q" then { m := m, cmd := .Quit, notes := [] }
  else if key = "p" ∨ key = " " then
    if m.isPaused then
      let pauseDuration := now - m.lastPauseTime
      { m := { m with isPaused := false, pausedTime := m.pausedTime + pauseDuration },
        cmd := .tick, notes := [] }
    else
      { m := { m with isPaused := true, lastPauseTime := now }, cmd := .nil, notes := [] }
  else { m := m, cmd := .nil, notes := [] }

/-- Source `updateInputFocus`. -/
def updateInputFocus (m : model) : model :=
  { m with
    timerInput := { m.timerInput with focus := decide (m.activeInput = 0) },
    breakInput := { m.breakInput with focus := decide (m.activeInput = 1) },
    sessionInput := { m.sessionInput with focus := decide (m.activeInput = 2) } }

/-- The text used for a field: its value, or the default when it is empty. -/
def orDefault (value dflt : List Char) : List Char :=
  if value = [] then dflt else value

/-- Source `validateAndSetValues`: the returned flag and the model after the call. -/
def validateAndSetValues (ff : FloatFrac) (m : model) : Bool × model :=
  let timerStr := orDefault m.timerInput.value ['2', '5', 'm']
  match parseDuration ff timerStr with
  | none => (false, m)
  | some timer =>
    let breakStr := orDefault m.breakInput.value ['5', 'm']
    match parseDuration ff breakStr with
    | none => (false, m)
    | some breakDur =>
      let sessionStr := orDefault m.sessionInput.value ['4']
      match Atoi sessionStr with
      | none => (false, m)
      | some sessions =>
        if sessions ≤ 0 then (false, m)
        else
          (true, { m with timerDuration := timer, breakDuration := breakDur,
                          sessions := sessions, currentSession := 0 })

/-- The tail of `updateInput`: the active text field handles the message. -/
def updateActiveInput (env : Env) (m : model) (msg : Msg) : Result :=
  if m.activeInput = 0 then
    let r := env.fieldUpdate m.timerInput msg
    { m := { m with timerInput := r.1 }, cmd := r.2, notes := [] }
  else if m.activeInput = 1 then
    let r := env.fieldUpdate m.breakInput msg
    { m := { m with breakInput := r.1 }, cmd := r.2, notes := [] }
  else if m.activeInput = 2 then
    let r := env.fieldUpdate m.sessionInput msg
    { m := { m with sessionInput := r.1 }, cmd := r.2, notes := [] }
  else { m := m, cmd := .nil, notes := [] }

/-- Source `updateInput`. -/
def updateInput (env : Env) (now : Int) (m : model) (key : String) : Result :=
  if key = "ctrl+c" ∨ key = "q" then { m := m, cmd := .Quit, notes := [] }
  else if key = "tab" ∨ key = "down" then
    updateActiveInput env
      (updateInputFocus { m with activeInput := Int.tmod (m.activeInput + 1) 3 }) (.KeyMsg key)
  else if key = "shift+tab" ∨ key = "up" then
    updateActiveInput env
      (updateInputFocus { m with activeInput := Int.tmod (m.activeInput - 1 + 3) 3 }) (.KeyMsg key)
  else if key = "enter" then
    let r := validateAndSetValues env.ff m
    if r.1 then
      { m := startTimer now { r.2 with state := StateTimer }, cmd := .tick, notes := [] }
    else updateActiveInput env r.2 (.KeyMsg key)
  else updateActiveInput env m (.KeyMsg key)

/-- Source `Update`, run when the clock reads `now`. -/
def Update (env : Env) (now : Int) (m : model) (msg : Msg) : Result :=
  match msg with
  | .KeyMsg key =>
    match m.state with
    | StateInput => updateInput env now m key
    | StateTimer => updateTimer now m key
    | StateBreak => updateTimer now m key
    | StateComplete =>
      if key = "q" ∨ key = "ctrl+c" then { m := m, cmd := .Quit, notes := [] }
      else { m := m, cmd := .nil, notes := [] }
  | .WindowSizeMsg w h =>
    { m := { m with width := w, height := h, progressWidth := min 50 (w - 10) },
      cmd := .nil, notes := [] }
  | .tickMsg _ =>
    if (m.state = StateTimer ∨ m.state = StateBreak) ∧ m.isPaused = false then updateTick now m
    else { m := m, cmd := .nil, notes := [] }
  | .other => { m := m, cmd := .nil, notes := [] }

/-- Source `main` up to the start of the program: the model handed to the
runtime, or `none` when a duration flag does not parse (exit code 1).  The
help flag is not modelled. -/
def mainModel (ff : FloatFrac) (now : Int) (timerFlag breakFlag : List Char)
    (sessionsFlag : Int) : Option model :=
  let m := initialModel
  if timerFlag ≠ [] ∧ breakFlag ≠ [] then
    match parseDuration ff timerFlag with
    | none => none
    | some timer =>
      match parseDuration ff breakFlag with
      | none => none
      | some breakDur =>
        some (startTimer now
          { m with timerDuration := timer, breakDuration := breakDur,
                   sessions := sessionsFlag, currentSession := 0, state := StateTimer })
  else some m

/-- The states the program can be in: the start states of `main` and what
`Update` makes of a reachable state, for any message and clock reading. -/
inductive Reachable (env : Env) : model → Prop where
  | start (now : Int) (timerFlag breakFlag : List Char) (sessionsFlag : Int) (m : model)
      (h : mainModel env.ff now timerFlag breakFlag sessionsFlag = some m) : Reachable env m
  | step (now : Int) (m : model) (msg : Msg) (h : Reachable env m) :
      Reachable env (Update env now m msg).m

/-- An exact stand-in for the floating point fraction, for evaluating examples. -/
def exactFrac : FloatFrac := fun f unit k => f * unit / 10 ^ k

/-- An environment for evaluating examples: text fields that ignore every key. -/
def idleEnv : Env := { fieldUpdate := fun t _ => (t, .nil), ff := exactFrac }

/-! ## Runs -/

/-- The model after handling a list of events, each with the clock reading at
which it is handled. -/
def run (env : Env) (m : model) : List (Int × Msg) → model
  | [] => m
  | e :: es => run env (Update env e.1 m e.2).m es

/-- Tick events at the given clock readings. -/
def ticks (ts : List Int) : List (Int × Msg) := ts.map fun t => (t, Msg.tickMsg t)

/-- The models visited while handling ticks at the given clock readings, the
first one included. -/
def traceTicks (env : Env) (m : model) : List Int → List model
  | [] => [m]
  | t :: ts => m :: traceTicks env (Update env t m (.tickMsg t)).m ts

/-- A tick at clock reading `now` is processed by `m` and finds the phase
elapsed (`remaining ≤ 0`). -/
def elapses (now : Int) (m : model) : Bool :=
  (decide (m.state = StateTimer) || decide (m.state = StateBreak)) && !m.isPaused &&
    decide (remainingAt now m ≤ 0)

/-- The number of ticks of a run at which a phase elapses. -/
def elapsedCount (env : Env) (m : model) : List Int → Nat
  | [] => 0
  | t :: ts =>
    (if elapses t m then 1 else 0) + elapsedCount env (Update env t m (.tickMsg t)).m ts

/-- The number of ticks of a run at which `currentSession` changes. -/
def increments (env : Env) (m : model) : List Int → Nat
  | [] => 0
  | t :: ts =>
    (if (Update env t m (.tickMsg t)).m.currentSession ≠ m.currentSession then 1 else 0) +
      increments env (Update env t m (.tickMsg t)).m ts

/-- A field with the given text. -/
def field (s : String) (focus : Bool) : TextInput := { value := s.toList, focus := focus }

/-- The input form filled with the given texts. -/
def form (work brk sess : String) : model :=
  { initialModel with timerInput := field work true, breakInput := field brk false,
                      sessionInput := field sess false }

/-- The state after submitting the plan of one minute of work, one minute of
break and two sessions at clock reading 0. -/
def demoWork : model := (Update idleEnv 0 (form "1m" "1m" "2") (.KeyMsg "enter")).m

/-- The start state of `pomo -t 1m -b 1m -s 2` at clock reading 0. -/
def flagWork : model :=
  startTimer 0 { initialModel with timerDuration := Minute, breakDuration := Minute,
                                   sessions := 2, state := StateTimer }

/-- The start state of `pomo --timer=-9223372036854775808ns --break=1m -s 2`
at clock reading 0: the work duration is the least 64-bit value. -/
def flagMin : model :=
  startTimer 0 { initialModel with timerDuration := -9223372036854775808,
                                   breakDuration := Minute, sessions := 2, state := StateTimer }

/-- The state `flagWork` after the tick at one minute. -/
def flagBreak : model := (Update idleEnv (60 * Second) flagWork (.tickMsg 0)).m

/-- The number of phases that have elapsed in a run of a plan: two for each
finished session, one more during a break. -/
def phaseIdx (m : model) : Int :=
  if m.state = StateComplete then 2 * m.sessions
  else 2 * m.currentSession + (if m.isBreak then 1 else 0)

/-- The states of an unpaused run of a plan of `N` sessions: Work or Break with
a session index in `[0, N)`, or Complete with session index `N`. -/
def Running (N : Int) (m : model) : Prop :=
  m.sessions = N ∧ m.state ≠ StateInput ∧
  (m.state = StateTimer → m.isBreak = false) ∧ (m.state = StateBreak → m.isBreak = true) ∧
  (m.state = StateComplete → m.currentSession = N) ∧
  (m.state ≠ StateComplete → m.isPaused = false ∧ 0 ≤ m.currentSession ∧ m.currentSession < N)

/-- The session index `y` follows `x` by staying or by growing by one. -/
def SessionStep (x y : model) : Prop :=
  y.currentSession = x.currentSession ∨ y.currentSession = x.currentSession + 1

/-- One pause of a phase: the ticks handled while running, the key that
pauses at clock reading `p`, the ticks delivered while paused, and the key that
resumes at clock reading `r`. -/
structure PauseSpan where
  before : List Int
  pauseKey : String
  p : Int
  during : List Int
  resumeKey : String
  r : Int

/-- The keys bound to pause and resume: `p` and the space bar. -/
def isPauseKey (key : String) : Bool := decide (key = "p") || decide (key = " ")

/-- The events of a pause, in order. -/
def PauseSpan.events (sp : PauseSpan) : List (Int × Msg) :=
  ticks sp.before ++ (sp.p, Msg.KeyMsg sp.pauseKey) :: (ticks sp.during ++
    [(sp.r, Msg.KeyMsg sp.resumeKey)])

/-- The events of a sequence of pauses. -/
def pauseEvents : List PauseSpan → List (Int × Msg)
  | [] => []
  | sp :: rest => sp.events ++ pauseEvents rest

/-- The sum of `r - p` over a sequence of pauses. -/
def pausedSum : List PauseSpan → Int
  | [] => 0
  | sp :: rest => (sp.r - sp.p) + pausedSum rest

/-- The pauses stay inside the current phase of `m`: the keys are pause keys
and no tick handled while running finds the phase elapsed. -/
def InPhase (env : Env) (m : model) : List PauseSpan → Prop
  | [] => True
  | sp :: rest =>
    isPauseKey sp.pauseKey = true ∧ isPauseKey sp.resumeKey = true ∧
    (∀ t ∈ sp.before, 0 < remainingAt t m) ∧ InPhase env (run env m sp.events) rest

/-- The fields that pausing and ticking inside a phase leave alone. -/
def SamePhase (m m1 : model) : Prop :=
  m1.state = m.state ∧ m1.startTime = m.startTime ∧ m1.totalTime = m.totalTime ∧
  m1.isBreak = m.isBreak ∧ m1.currentSession = m.currentSession ∧ m1.sessions = m.sessions ∧
  m1.timerDuration = m.timerDuration ∧ m1.breakDuration = m.breakDuration

/-- A Work phase of 25 minutes started at clock reading 0. -/
def demoPhase : model :=
  startTimer 0 { initialModel with timerDuration := 25 * Minute, breakDuration := 5 * Minute,
                                   sessions := 4, state := StateTimer }

/-- The first pause of the example: from 10 s to 70 s, with ticks at 1 s and
2 s before it and a tick at 30 s while paused. -/
def demoPauses : List PauseSpan :=
  [ { before := [1 * Second, 2 * Second], pauseKey := "p", p := 10 * Second,
      during := [30 * Second], resumeKey := " ", r := 70 * Second } ]

/-- The second pause of the example: from 100 s to 400 s, after a tick at 71 s. -/
def demoLastPause : PauseSpan :=
  { before := [71 * Second], pauseKey := " ", p := 100 * Second,
    during := [], resumeKey := "p", r := 400 * Second }

/-! ## Views -/

/-- Source `viewTimer`, the session counter: the text `Session %d of %d`. -/
def sessionText (m : model) : String :=
  "Session " ++ toString (m.currentSession + 1) ++ " of " ++ toString m.sessions

/-- Source `viewTimer`, the progress calculation
`elapsed := m.totalTime - m.remaining` (a 64-bit subtraction) and
`progressPercent := elapsed / totalTime`, capped at 1, with the division taken
as a division of exact rationals: `none` when the divisor `totalTime` is zero
and the quotient is not defined. -/
def progressPercent (m : model) : Option ℚ :=
  let elapsed := wrap64 (m.totalTime - m.remaining)
  if m.totalTime = 0 then none
  else
    let p : ℚ := (elapsed : ℚ) / (m.totalTime : ℚ)
    some (if p > 1 then 1 else p)

/-- The numbers shown by the completion summary. -/
structure Stats where
  sessions : Int
  focus : Int
  breaks : Int
  deriving DecidableEq, Repr

/-- Source `viewComplete`: the session count and the two spans handed to
`formatDuration` (products of `time.Duration`, hence wrapped to 64 bits). -/
def viewComplete (m : model) : Stats :=
  { sessions := m.sessions,
    focus := wrap64 (m.timerDuration * m.sessions),
    breaks := wrap64 (m.breakDuration * (m.sessions - 1)) }

/-- The cumulative duration (`totalTime`) of the phases with tag `st` that
elapse during a run of ticks. -/
def phaseTimeRun (env : Env) (st : State) (m : model) : List Int → Int
  | [] => 0
  | t :: ts =>
    (if elapses t m = true ∧ m.state = st then m.totalTime else 0) +
      phaseTimeRun env st (Update env t m (.tickMsg t)).m ts

/-! ## The effect of one event -/

/-- The event leaves the phase, the session index, the plan and the arming of
the timer alone, and sends no notification. -/
def Frame (m : model) (r : Result) : Prop :=
  r.m.state = m.state ∧ r.m.currentSession = m.currentSession ∧
  r.m.timerDuration = m.timerDuration ∧ r.m.breakDuration = m.breakDuration ∧
  r.m.sessions = m.sessions ∧ r.m.totalTime = m.totalTime ∧ r.m.isBreak = m.isBreak ∧
  r.notes = []

/-- The event is Enter on a valid form: Input to Work. -/
def Submitted (env : Env) (m : model) (msg : Msg) (r : Result) : Prop :=
  m.state = StateInput ∧ msg = Msg.KeyMsg "enter" ∧ (validateAndSetValues env.ff m).1 = true ∧
  r.m.state = StateTimer ∧ r.m.currentSession = 0 ∧ r.m.isBreak = false ∧
  r.m.totalTime = r.m.timerDuration ∧ 0 < r.m.sessions ∧ r.notes = []

/-- The event is a tick on which the work phase elapses: Work to Break. -/
def WorkElapsed (now : Int) (m : model) (msg : Msg) (r : Result) : Prop :=
  m.state = StateTimer ∧ (∃ t, msg = Msg.tickMsg t) ∧ m.isPaused = false ∧
  remainingAt now m ≤ 0 ∧ r.m.state = StateBreak ∧ r.m.currentSession = m.currentSession ∧
  r.m.timerDuration = m.timerDuration ∧ r.m.breakDuration = m.breakDuration ∧
  r.m.sessions = m.sessions ∧ r.m.isBreak = true ∧ r.m.totalTime = r.m.breakDuration ∧
  r.notes = [sendNotification m]

/-- The event is a tick on which the break elapses: Break to Work when
sessions remain, Break to Complete otherwise. -/
def BreakElapsed (now : Int) (m : model) (msg : Msg) (r : Result) : Prop :=
  m.state = StateBreak ∧ (∃ t, msg = Msg.tickMsg t) ∧ m.isPaused = false ∧
  remainingAt now m ≤ 0 ∧ r.m.currentSession = m.currentSession + 1 ∧
  r.m.timerDuration = m.timerDuration ∧ r.m.breakDuration = m.breakDuration ∧
  r.m.sessions = m.sessions ∧ r.notes = [sendNotification m] ∧
  ((m.currentSession + 1 ≥ m.sessions ∧ r.m.state = StateComplete) ∨
    (m.currentSession + 1 < m.sessions ∧ r.m.state = StateTimer ∧ r.m.isBreak = false ∧
      r.m.totalTime = r.m.timerDuration))

/-- The timer is armed for its phase: in Work the break flag is unset and
`totalTime` is the work duration, in Break the flag is set and `totalTime` is
the break duration. -/
def Armed (m : model) : Prop :=
  (m.state = StateTimer → m.isBreak = false ∧ m.totalTime = m.timerDuration) ∧
  (m.state = StateBreak → m.isBreak = true ∧ m.totalTime = m.breakDuration)

/-- The session count is valid in Work and Break: at least one session, and
the session index in `[0, sessions)`. -/
def Validated (m : model) : Prop :=
  (m.state = StateTimer ∨ m.state = StateBreak) →
    1 ≤ m.sessions ∧ 0 ≤ m.currentSession ∧ m.currentSession < m.sessions

/-- The start state of `pomo -t 1m -b 1m -s 0` at clock reading 0. -/
def flagZero : model :=
  startTimer 0 { initialModel with timerDuration := Minute, breakDuration := Minute,
                                   sessions := 0, state := StateTimer }

/-- The state after submitting the form with a work duration of `0` and the
other fields empty, at clock reading 0. -/
def zeroWork : model := (Update idleEnv 0 (form "0" "" "") (.KeyMsg "enter")).m

/-- The ticks of the example run: after one, two, three and four minutes. -/
def demoTicks : List Int := [60 * Second, 120 * Second, 180 * Second, 240 * Second]

/-! ## Tick schedules -/

/-- The break flag agrees with the phase: unset in Work, set in Break. -/
def Coherent (m : model) : Prop :=
  (m.state = StateTimer → m.isBreak = false) ∧ (m.state = StateBreak → m.isBreak = true)

/-! ## Wrap-around -/

theorem wrap64_eq (x : Int) (h1 : -2 ^ 63 ≤ x) (h2 : x < 2 ^ 63) : wrap64 x = x := by
  unfold wrap64
  rw [Int.emod_eq_of_lt (by omega) (by omega)]
  omega

theorem wrap64_sub_wrap64 (a b : Int) : wrap64 (a - wrap64 b) = wrap64 (a - b) := by
  unfold wrap64
  omega

theorem updateActiveInput_state (env : Env) (m : model) (msg : Msg) :
    (updateActiveInput env m msg).m.state = m.state ∧
    (updateActiveInput env m msg).m.isBreak = m.isBreak := by
  unfold updateActiveInput
  split_ifs <;> simp

theorem validateAndSetValues_state (ff : FloatFrac) (m : model) :
    (validateAndSetValues ff m).2.state = m.state ∧
    (validateAndSetValues ff m).2.isBreak = m.isBreak := by
  unfold validateAndSetValues
  simp only
  split
  · simp
  · split
    · simp
    · split
      · simp
      · split_ifs <;> simp

theorem updateInput_coherent (env : Env) (now : Int) (m : model) (key : String)
    (hs : m.state = StateInput) : Coherent (updateInput env now m key).m := by
  unfold updateInput
  have hv := validateAndSetValues_state env.ff m
  simp only
  split_ifs
  · simp [Coherent, hs]
  · simp [Coherent, (updateActiveInput_state env _ _).1, updateInputFocus, hs]
  · simp [Coherent, (updateActiveInput_state env _ _).1, updateInputFocus, hs]
  · simp [Coherent, startTimer]
  · simp [Coherent, (updateActiveInput_state env _ _).1, hv.1, hs]
  · simp [Coherent, (updateActiveInput_state env _ _).1, hs]

theorem updateTimer_coherent (now : Int) (m : model) (key : String) (h : Coherent m) :
    Coherent (updateTimer now m key).m := by
  unfold updateTimer
  split_ifs <;> exact h

theorem updateTick_coherent (now : Int) (m : model) (h : Coherent m) :
    Coherent (updateTick now m).m := by
  unfold updateTick
  simp only
  split_ifs <;> simp_all [Coherent, startTimer, startBreak]

theorem Update_coherent (env : Env) (now : Int) (m : model) (msg : Msg) (h : Coherent m) :
    Coherent (Update env now m msg).m := by
  unfold Update
  cases msg with
  | KeyMsg key =>
    simp only
    split
    · rename_i hs; exact updateInput_coherent env now m key hs
    · exact updateTimer_coherent now m key h
    · exact updateTimer_coherent now m key h
    · split_ifs <;> exact h
  | WindowSizeMsg w hgt => exact h
  | tickMsg t =>
    simp only
    split_ifs
    · exact updateTick_coherent now m h
    · exact h
  | other => exact h

theorem mainModel_coherent (ff : FloatFrac) (now : Int) (tf bf : List Char) (sf : Int)
    (m : model) (h : mainModel ff now tf bf sf = some m) : Coherent m := by
  unfold mainModel at h
  simp only at h
  split_ifs at h
  · split at h
    · simp at h
    · split at h
      · simp at h
      · simp only [Option.some.injEq] at h
        subst h
        simp [Coherent, startTimer]
  · simp only [Option.some.injEq] at h
    subst h
    simp [Coherent, initialModel]

theorem Reachable.coherent {env : Env} {m : model} (h : Reachable env m) : Coherent m := by
  induction h with
  | start now tf bf sf m h => exact mainModel_coherent env.ff now tf bf sf m h
  | step now m msg _ ih => exact Update_coherent env now m msg ih

/-! ## Ticks -/

theorem Update_tick_skip (env : Env) (now : Int) (m : model) (t : Int)
    (h : m.state = StateInput ∨ m.state = StateComplete ∨ m.isPaused = true) :
    Update env now m (.tickMsg t) = { m := m, cmd := Cmd.nil, notes := [] } := by
  unfold Update
  simp only
  rcases h with h | h | h <;> simp [h]

/-- C10: a tick delivered in the Input phase, in the Complete phase, or while
the timer is paused is ignored: `Update` returns the model unchanged, sends no
notification and returns no command (so no further tick is scheduled). -/
theorem Update_tick_ignored (env : Env) (now : Int) (m : model) (t : Int)
    (h : m.state = StateInput ∨ m.state = StateComplete ∨ m.isPaused = true) :
    (Update env now m (.tickMsg t)).m = m ∧
    (Update env now m (.tickMsg t)).cmd = Cmd.nil ∧
    (Update env now m (.tickMsg t)).notes = [] := by
  rw [Update_tick_skip env now m t h]
  exact ⟨rfl, rfl, rfl⟩

/-- Witness of C10: a paused Break phase ignores a tick. -/
theorem Update_tick_ignored_witness :
    ({ initialModel with state := StateBreak, isBreak := true, isPaused := true } : model).isPaused
      = true ∧
    (Update idleEnv 7 { initialModel with state := StateBreak, isBreak := true, isPaused := true }
      (.tickMsg 7)).m
      = { initialModel with state := StateBreak, isBreak := true, isPaused := true } ∧
    (Update idleEnv 7 { initialModel with state := StateBreak, isBreak := true, isPaused := true }
      (.tickMsg 7)).cmd = Cmd.nil ∧
    (Update idleEnv 7 { initialModel with state := StateBreak, isBreak := true, isPaused := true }
      (.tickMsg 7)).notes = [] :=
  ⟨rfl, Update_tick_ignored idleEnv 7 _ 7 (Or.inr (Or.inr rfl))⟩

/-- C2, as stated, fails where the 64-bit subtraction overflows: the start
state of `pomo --timer=-9223372036854775808ns --break=1m -s 2` is a
reachable, unpaused Work state with `totalTime = -2 ^ 63`; at the tick one second later
`now - startTime - pausedTime = 10 ^ 9 ≥ totalTime`, but the remaining time
`totalTime - elapsed` wraps around to `2 ^ 63 - 10 ^ 9 > 0`: the phase stays
Work and nothing is notified. -/
theorem updateTick_elapsed_overflow :
    mainModel idleEnv.ff 0 "-9223372036854775808ns".toList "1m".toList 2 = some flagMin ∧
    Reachable idleEnv flagMin ∧
    flagMin.state = StateTimer ∧ flagMin.isPaused = false ∧
    flagMin.totalTime = -9223372036854775808 ∧
    1 * Second - flagMin.startTime - flagMin.pausedTime ≥ flagMin.totalTime ∧
    (Update idleEnv (1 * Second) flagMin (.tickMsg 0)).m.state = StateTimer ∧
    (Update idleEnv (1 * Second) flagMin (.tickMsg 0)).m.remaining = 9223372035854775808 ∧
    (Update idleEnv (1 * Second) flagMin (.tickMsg 0)).notes = [] := by
  have h : mainModel idleEnv.ff 0 "-9223372036854775808ns".toList "1m".toList 2 =
      some flagMin := by decide
  exact ⟨h, Reachable.start 0 _ _ 2 _ h, by decide, by decide, by decide, by decide, by decide,
    by decide, by decide⟩

/-- C2, amended: in a reachable, unpaused Work or Break state, a tick at a
clock reading `now` with `now - startTime - pausedTime ≥ totalTime` (equality
included) whose remaining time `totalTime - (now - startTime - pausedTime)` is
not below `-2 ^ 63` (it fits the 64-bit `remaining`) transitions at once.  From
Work the phase becomes Break, armed with `totalTime = remaining =
breakDuration`, not paused, `pausedTime = 0`, and `currentSession` is
unchanged.  From Break `currentSession` grows by one; the phase becomes
Complete when the new `currentSession ≥ sessions`, and otherwise Work, armed
with `totalTime = timerDuration`, not paused, `pausedTime = 0`.  The plan
itself is unchanged throughout. -/
theorem updateTick_elapsed (env : Env) (now : Int) (m : model) (t : Int)
    (hr : Reachable env m) (hs : m.state = StateTimer ∨ m.state = StateBreak)
    (hp : m.isPaused = false) (he : now - m.startTime - m.pausedTime ≥ m.totalTime)
    (hfit : -2 ^ 63 ≤ m.totalTime - (now - m.startTime - m.pausedTime)) :
    let m1 := (Update env now m (.tickMsg t)).m
    (m1.timerDuration = m.timerDuration ∧ m1.breakDuration = m.breakDuration ∧
      m1.sessions = m.sessions) ∧
    (m.state = StateTimer →
      m1.state = StateBreak ∧ m1.totalTime = m.breakDuration ∧
      m1.remaining = m.breakDuration ∧ m1.isPaused = false ∧ m1.pausedTime = 0 ∧
      m1.currentSession = m.currentSession) ∧
    (m.state = StateBreak →
      m1.currentSession = m.currentSession + 1 ∧
      (m1.currentSession ≥ m.sessions → m1.state = StateComplete) ∧
      (¬ m1.currentSession ≥ m.sessions →
        m1.state = StateTimer ∧ m1.totalTime = m.timerDuration ∧
        m1.isPaused = false ∧ m1.pausedTime = 0)) := by
  have hc := hr.coherent
  have hrem : remainingAt now m ≤ 0 := by
    unfold remainingAt
    rw [wrap64_sub_wrap64, wrap64_eq _ hfit (by omega)]
    omega
  intro m1
  have hm1 : m1 = (updateTick now m).m := by
    show (Update env now m (.tickMsg t)).m = _
    unfold Update
    simp [hs, hp]
  rw [hm1]
  unfold updateTick
  simp only [hrem, if_true]
  rcases hs with hs | hs
  · have hb := hc.1 hs
    simp [hb, hs, startBreak]
  · have hb := hc.2 hs
    simp only [hb, if_true]
    split_ifs with h1
    · simp [hs, h1]
    · simp [hs, h1, startTimer]

/-- Witness of C2: the start state of `pomo -t 1m -b 1m -s 2` at the tick one
minute later, and the Break state that follows at the tick after two minutes. -/
theorem updateTick_elapsed_witness :
    (Reachable idleEnv flagWork ∧ flagWork.state = StateTimer ∧ flagWork.isPaused = false ∧
      60 * Second - flagWork.startTime - flagWork.pausedTime ≥ flagWork.totalTime ∧
      -2 ^ 63 ≤ flagWork.totalTime - (60 * Second - flagWork.startTime - flagWork.pausedTime)) ∧
    ((Update idleEnv (60 * Second) flagWork (.tickMsg 0)).m.state = StateBreak ∧
      (Update idleEnv (60 * Second) flagWork (.tickMsg 0)).m.totalTime = flagWork.breakDuration ∧
      (Update idleEnv (60 * Second) flagWork (.tickMsg 0)).m.currentSession = 0) ∧
    (Reachable idleEnv flagBreak ∧ flagBreak.state = StateBreak ∧ flagBreak.isPaused = false ∧
      120 * Second - flagBreak.startTime - flagBreak.pausedTime ≥ flagBreak.totalTime ∧
      -2 ^ 63 ≤ flagBreak.totalTime -
        (120 * Second - flagBreak.startTime - flagBreak.pausedTime)) ∧
    ((Update idleEnv (120 * Second) flagBreak (.tickMsg 0)).m.currentSession = 1 ∧
      (Update idleEnv (120 * Second) flagBreak (.tickMsg 0)).m.state = StateTimer) := by
  have hw : Reachable idleEnv flagWork :=
    Reachable.start 0 ['1', 'm'] ['1', 'm'] 2 _ (by decide)
  have hb : Reachable idleEnv flagBreak := Reachable.step _ _ _ hw
  have h1 := updateTick_elapsed idleEnv (60 * Second) flagWork 0 hw (Or.inl (by decide))
    (by decide) (by decide) (by decide)
  have h2 := updateTick_elapsed idleEnv (120 * Second) flagBreak 0 hb (Or.inr (by decide))
    (by decide) (by decide) (by decide)
  have h1w := h1.2.1 (by decide)
  have h2b := h2.2.2 (by decide)
  refine ⟨⟨hw, by decide, by decide, by decide, by decide⟩, ⟨h1w.1, h1w.2.1, ?_⟩,
    ⟨hb, by decide, by decide, by decide, by decide⟩, ⟨?_, ?_⟩⟩
  · exact h1w.2.2.2.2.2
  · exact h2b.1
  · exact (h2b.2.2 (by decide)).1

/-! ## Ticks of a running plan -/

theorem updateTick_running_m (now : Int) (m : model) (h : ¬ remainingAt now m ≤ 0) :
    (updateTick now m).m = { m with remaining := remainingAt now m } := by
  unfold updateTick
  simp [h]

theorem updateTick_work_m (now : Int) (m : model) (h : remainingAt now m ≤ 0)
    (hb : m.isBreak = false) :
    (updateTick now m).m =
      startBreak now { m with remaining := remainingAt now m, state := StateBreak } := by
  unfold updateTick
  simp [h, hb]

theorem updateTick_last_m (now : Int) (m : model) (h : remainingAt now m ≤ 0)
    (hb : m.isBreak = true) (hge : m.currentSession + 1 ≥ m.sessions) :
    (updateTick now m).m =
      { m with remaining := remainingAt now m, currentSession := m.currentSession + 1,
               state := StateComplete } := by
  unfold updateTick
  simp [h, hb, hge]

theorem updateTick_next_m (now : Int) (m : model) (h : remainingAt now m ≤ 0)
    (hb : m.isBreak = true) (hlt : ¬ m.currentSession + 1 ≥ m.sessions) :
    (updateTick now m).m =
      startTimer now { m with remaining := remainingAt now m,
                              currentSession := m.currentSession + 1, state := StateTimer } := by
  unfold updateTick
  simp [h, hb, hlt]

theorem Update_tick_eq (env : Env) (now t : Int) (m : model)
    (hs : m.state = StateTimer ∨ m.state = StateBreak) (hp : m.isPaused = false) :
    Update env now m (.tickMsg t) = updateTick now m := by
  unfold Update
  simp [hs, hp]

theorem Update_tick_running (env : Env) (N : Int) (t : Int) (m : model) (h : Running N m) :
    Running N (Update env t m (.tickMsg t)).m ∧
    phaseIdx (Update env t m (.tickMsg t)).m = phaseIdx m + (if elapses t m then 1 else 0) ∧
    SessionStep m (Update env t m (.tickMsg t)).m ∧
    (Update env t m (.tickMsg t)).m.currentSession ≤ N := by
  obtain ⟨hN, hni, hw, hb, hc, hr⟩ := h
  subst hN
  by_cases hcomp : m.state = StateComplete
  · have hcs := hc hcomp
    have hU : (Update env t m (.tickMsg t)).m = m := by
      unfold Update
      simp [hcomp]
    rw [hU]
    refine ⟨⟨rfl, hni, hw, hb, hc, hr⟩, ?_, Or.inl rfl, le_of_eq hcs⟩
    simp [elapses, hcomp]
  · obtain ⟨hp, h0, hlt⟩ := hr hcomp
    have hst : m.state = StateTimer ∨ m.state = StateBreak := by
      cases hm : m.state <;> simp_all
    rw [Update_tick_eq env t t m hst hp]
    by_cases hrem : remainingAt t m ≤ 0
    · have hel : elapses t m = true := by
        rcases hst with hs | hs <;> simp [elapses, hs, hp, hrem]
      rcases hst with hs | hs
      · have hbf := hw hs
        rw [updateTick_work_m t m hrem hbf]
        refine ⟨⟨rfl, by simp [startBreak], by simp [startBreak], by simp [startBreak],
          by simp [startBreak], ?_⟩, ?_, Or.inl rfl, ?_⟩
        · intro _
          exact ⟨rfl, h0, hlt⟩
        · simp [phaseIdx, startBreak, hs, hbf, hel]
        · simp only [startBreak]
          omega
      · have hbt := hb hs
        by_cases hge : m.currentSession + 1 ≥ m.sessions
        · rw [updateTick_last_m t m hrem hbt hge]
          have hEq : m.currentSession + 1 = m.sessions := by omega
          refine ⟨⟨rfl, by simp, by simp, by simp, ?_, by simp⟩, ?_, Or.inr rfl, ?_⟩
          · intro _
            exact hEq
          · simp [phaseIdx, hs, hbt, hel]
            omega
          · exact le_of_eq hEq
        · rw [updateTick_next_m t m hrem hbt hge]
          refine ⟨⟨rfl, by simp [startTimer], by simp [startTimer], by simp [startTimer],
            by simp [startTimer], ?_⟩, ?_, Or.inr rfl, ?_⟩
          · intro _
            refine ⟨rfl, ?_, ?_⟩
            · show 0 ≤ m.currentSession + 1
              omega
            · show m.currentSession + 1 < m.sessions
              omega
          · simp [phaseIdx, startTimer, hs, hbt, hel]
            ring
          · simp only [startTimer]
            omega
    · have hel : elapses t m = false := by
        simp [elapses, hrem]
      rw [updateTick_running_m t m hrem]
      refine ⟨⟨rfl, hni, hw, hb, hc, hr⟩, ?_, Or.inl rfl, le_of_lt hlt⟩
      simp [phaseIdx, hel]

theorem run_ticks_running (env : Env) (N : Int) (ts : List Int) :
    ∀ m : model, Running N m →
      Running N (run env m (ticks ts)) ∧
      phaseIdx (run env m (ticks ts)) = phaseIdx m + elapsedCount env m ts ∧
      (run env m (ticks ts)).currentSession = m.currentSession + increments env m ts ∧
      List.Chain' SessionStep (traceTicks env m ts) ∧
      ∀ x ∈ traceTicks env m ts, x.currentSession ≤ N := by
  induction ts with
  | nil =>
    intro m h
    refine ⟨h, by simp [run, ticks, elapsedCount], by simp [run, ticks, increments],
      by simp [traceTicks], ?_⟩
    intro x hx
    simp only [traceTicks, List.mem_singleton] at hx
    subst hx
    obtain ⟨hN, hni, hw, hb, hc, hr⟩ := h
    by_cases hcomp : x.state = StateComplete
    · exact le_of_eq (hc hcomp)
    · exact le_of_lt (hr hcomp).2.2
  | cons t ts ih =>
    intro m h
    obtain ⟨h1, h2, h3, h4⟩ := Update_tick_running env N t m h
    obtain ⟨i1, i2, i3, i4, i5⟩ := ih _ h1
    have hm : m.currentSession ≤ N := by
      obtain ⟨hN, hni, hw, hb, hc, hr⟩ := h
      by_cases hcomp : m.state = StateComplete
      · exact le_of_eq (hc hcomp)
      · exact le_of_lt (hr hcomp).2.2
    refine ⟨?_, ?_, ?_, ?_, ?_⟩
    · simpa [run, ticks] using i1
    · have : run env m (ticks (t :: ts)) = run env (Update env t m (.tickMsg t)).m (ticks ts) := by
        simp [run, ticks]
      rw [this, i2, h2]
      simp only [elapsedCount]
      push_cast
      ring
    · have : run env m (ticks (t :: ts)) = run env (Update env t m (.tickMsg t)).m (ticks ts) := by
        simp [run, ticks]
      rw [this, i3]
      simp only [increments]
      push_cast
      rcases h3 with h3 | h3
      · simp [h3]
      · simp [h3]
        ring
    · cases ts with
      | nil => simpa [traceTicks] using h3
      | cons t2 ts2 =>
        simp only [traceTicks, List.chain'_cons] at i4 ⊢
        exact ⟨h3, i4⟩
    · intro x hx
      simp only [traceTicks, List.mem_cons] at hx
      rcases hx with hx | hx
      · subst hx; exact hm
      · exact i5 x hx

/-! ## Submitting the form -/

theorem validateAndSetValues_true (ff : FloatFrac) (m : model)
    (h : (validateAndSetValues ff m).1 = true) :
    ∃ timer breakDur sessions,
      parseDuration ff (orDefault m.timerInput.value ['2', '5', 'm']) = some timer ∧
      parseDuration ff (orDefault m.breakInput.value ['5', 'm']) = some breakDur ∧
      Atoi (orDefault m.sessionInput.value ['4']) = some sessions ∧ 0 < sessions ∧
      (validateAndSetValues ff m).2 =
        { m with timerDuration := timer, breakDuration := breakDur, sessions := sessions,
                 currentSession := 0 } := by
  unfold validateAndSetValues at h ⊢
  simp only at h ⊢
  cases h1 : parseDuration ff (orDefault m.timerInput.value ['2', '5', 'm']) with
  | none => simp [h1] at h
  | some timer =>
    cases h2 : parseDuration ff (orDefault m.breakInput.value ['5', 'm']) with
    | none => simp [h1, h2] at h
    | some breakDur =>
      cases h3 : Atoi (orDefault m.sessionInput.value ['4']) with
      | none => simp [h1, h2, h3] at h
      | some sessions =>
        by_cases h4 : sessions ≤ 0
        · simp [h1, h2, h3, h4] at h
        · refine ⟨timer, breakDur, sessions, rfl, rfl, rfl, by omega, ?_⟩
          simp [h4]

theorem validateAndSetValues_false (ff : FloatFrac) (m : model)
    (h : (validateAndSetValues ff m).1 = false) : (validateAndSetValues ff m).2 = m := by
  unfold validateAndSetValues at h ⊢
  simp only at h ⊢
  cases h1 : parseDuration ff (orDefault m.timerInput.value ['2', '5', 'm']) with
  | none => rfl
  | some timer =>
    cases h2 : parseDuration ff (orDefault m.breakInput.value ['5', 'm']) with
    | none => rfl
    | some breakDur =>
      cases h3 : Atoi (orDefault m.sessionInput.value ['4']) with
      | none => rfl
      | some sessions =>
        by_cases h4 : sessions ≤ 0
        · simp [h4]
        · simp [h1, h2, h3, h4] at h

theorem Update_enter (env : Env) (now : Int) (m : model) (hs : m.state = StateInput) :
    Update env now m (.KeyMsg "enter") =
      if (validateAndSetValues env.ff m).1 = true then
        { m := startTimer now { (validateAndSetValues env.ff m).2 with state := StateTimer },
          cmd := Cmd.tick, notes := [] }
      else updateActiveInput env (validateAndSetValues env.ff m).2 (.KeyMsg "enter") := by
  unfold Update
  simp only [hs]
  unfold updateInput
  have e1 : ¬ ("enter" = "ctrl+c" ∨ "enter" = "q") := by decide
  have e2 : ¬ ("enter" = "tab" ∨ "enter" = "down") := by decide
  have e3 : ¬ ("enter" = "shift+tab" ∨ "enter" = "up") := by decide
  simp only [e1, e2, e3, if_false, if_true]

/-! ## Pause and resume -/

theorem run_append (env : Env) (es1 es2 : List (Int × Msg)) :
    ∀ m : model, run env m (es1 ++ es2) = run env (run env m es1) es2 := by
  induction es1 with
  | nil => intro m; rfl
  | cons e es ih => intro m; simp only [List.cons_append, run]; exact ih _

theorem run_ticks_inside (env : Env) (ts : List Int) :
    ∀ m : model, (m.state = StateTimer ∨ m.state = StateBreak) → m.isPaused = false →
      (∀ t ∈ ts, 0 < remainingAt t m) →
      SamePhase m (run env m (ticks ts)) ∧ (run env m (ticks ts)).isPaused = false ∧
      (run env m (ticks ts)).pausedTime = m.pausedTime := by
  induction ts with
  | nil => intro m _ hp _; exact ⟨⟨rfl, rfl, rfl, rfl, rfl, rfl, rfl, rfl⟩, hp, rfl⟩
  | cons t ts ih =>
    intro m hs hp hin
    have ht : ¬ remainingAt t m ≤ 0 := by
      have := hin t (List.mem_cons_self t ts)
      omega
    have hU : (Update env t m (.tickMsg t)).m = { m with remaining := remainingAt t m } := by
      rw [Update_tick_eq env t t m hs hp, updateTick_running_m t m ht]
    have hrun : run env m (ticks (t :: ts)) =
        run env { m with remaining := remainingAt t m } (ticks ts) := by
      simp only [ticks, List.map_cons, run]
      rw [hU]
    rw [hrun]
    have := ih { m with remaining := remainingAt t m } hs hp (by
      intro t2 ht2
      exact hin t2 (List.mem_cons_of_mem t ht2))
    exact this

theorem run_ticks_paused (env : Env) (ts : List Int) (m : model) (hp : m.isPaused = true) :
    run env m (ticks ts) = m := by
  induction ts with
  | nil => rfl
  | cons t ts ih =>
    simp only [ticks, List.map_cons, run]
    rw [Update_tick_skip env t m t (Or.inr (Or.inr hp))]
    exact ih

theorem Update_pause_key (env : Env) (now : Int) (m : model) (key : String)
    (hs : m.state = StateTimer ∨ m.state = StateBreak) (hk : isPauseKey key = true) :
    (Update env now m (.KeyMsg key)).m =
      if m.isPaused then
        { m with isPaused := false, pausedTime := m.pausedTime + (now - m.lastPauseTime) }
      else { m with isPaused := true, lastPauseTime := now } := by
  have hk2 : key = "p" ∨ key = " " := by simpa [isPauseKey] using hk
  have hq : ¬ (key = "ctrl+c" ∨ key = "q") := by
    rcases hk2 with h | h <;> subst h <;> decide
  have hU : Update env now m (.KeyMsg key) = updateTimer now m key := by
    unfold Update
    rcases hs with hs | hs <;> simp [hs]
  rw [hU]
  unfold updateTimer
  simp only [hq, hk2, if_false, if_true]
  split_ifs <;> rfl

theorem run_span (env : Env) (m : model) (sp : PauseSpan)
    (hs : m.state = StateTimer ∨ m.state = StateBreak) (hp : m.isPaused = false)
    (hk1 : isPauseKey sp.pauseKey = true) (hk2 : isPauseKey sp.resumeKey = true)
    (hin : ∀ t ∈ sp.before, 0 < remainingAt t m) :
    SamePhase m (run env m sp.events) ∧ (run env m sp.events).isPaused = false ∧
    (run env m sp.events).pausedTime = m.pausedTime + (sp.r - sp.p) := by
  obtain ⟨hsame, hpa, hpt⟩ := run_ticks_inside env sp.before m hs hp hin
  set m1 := run env m (ticks sp.before) with hm1
  have hs1 : m1.state = StateTimer ∨ m1.state = StateBreak := by
    rw [hsame.1]; exact hs
  have h2 := Update_pause_key env sp.p m1 sp.pauseKey hs1 hk1
  simp only [hpa, Bool.false_eq_true, if_false] at h2
  set m2 := (Update env sp.p m1 (.KeyMsg sp.pauseKey)).m with hm2
  have hp2 : m2.isPaused = true := by rw [h2]
  have h3 := run_ticks_paused env sp.during m2 hp2
  have hs2 : m2.state = StateTimer ∨ m2.state = StateBreak := by
    rw [h2]; exact hs1
  have h4 := Update_pause_key env sp.r m2 sp.resumeKey hs2 hk2
  simp only [hp2, if_true] at h4
  have hrun : run env m sp.events = (Update env sp.r m2 (.KeyMsg sp.resumeKey)).m := by
    unfold PauseSpan.events
    rw [run_append, ← hm1]
    simp only [run]
    rw [← hm2, run_append, h3]
    simp only [run]
  rw [hrun, h4, h2]
  obtain ⟨a1, a2, a3, a4, a5, a6, a7, a8⟩ := hsame
  refine ⟨⟨a1, a2, a3, a4, a5, a6, a7, a8⟩, rfl, ?_⟩
  show m1.pausedTime + (sp.r - sp.p) = _
  rw [hpt]

theorem run_spans (env : Env) (spans : List PauseSpan) :
    ∀ m : model, (m.state = StateTimer ∨ m.state = StateBreak) → m.isPaused = false →
      InPhase env m spans →
      SamePhase m (run env m (pauseEvents spans)) ∧
      (run env m (pauseEvents spans)).isPaused = false ∧
      (run env m (pauseEvents spans)).pausedTime = m.pausedTime + pausedSum spans := by
  induction spans with
  | nil =>
    intro m _ hp _
    exact ⟨⟨rfl, rfl, rfl, rfl, rfl, rfl, rfl, rfl⟩, hp, by simp [pauseEvents, run, pausedSum]⟩
  | cons sp rest ih =>
    intro m hs hp hin
    obtain ⟨hk1, hk2, hb, hrest⟩ := hin
    obtain ⟨hsame, hpa, hpt⟩ := run_span env m sp hs hp hk1 hk2 hb
    have hs1 : (run env m sp.events).state = StateTimer ∨
        (run env m sp.events).state = StateBreak := by
      rw [hsame.1]; exact hs
    obtain ⟨isame, ipa, ipt⟩ := ih (run env m sp.events) hs1 hpa hrest
    simp only [pauseEvents, run_append, pausedSum]
    refine ⟨?_, ipa, ?_⟩
    · obtain ⟨a1, a2, a3, a4, a5, a6, a7, a8⟩ := hsame
      obtain ⟨b1, b2, b3, b4, b5, b6, b7, b8⟩ := isame
      exact ⟨b1.trans a1, b2.trans a2, b3.trans a3, b4.trans a4, b5.trans a5, b6.trans a6,
        b7.trans a7, b8.trans a8⟩
    · rw [ipt, hpt]
      ring

theorem InPhase_append (env : Env) (spans : List PauseSpan) (last : PauseSpan) :
    ∀ m : model, InPhase env m (spans ++ [last]) →
      InPhase env m spans ∧ InPhase env (run env m (pauseEvents spans)) [last] := by
  induction spans with
  | nil => intro m h; exact ⟨trivial, by simpa [pauseEvents, run] using h⟩
  | cons sp rest ih =>
    intro m h
    obtain ⟨hk1, hk2, hb, hrest⟩ := h
    obtain ⟨i1, i2⟩ := ih _ hrest
    refine ⟨⟨hk1, hk2, hb, i1⟩, ?_⟩
    simpa only [pauseEvents, run_append] using i2

theorem pausedSum_append (spans : List PauseSpan) (last : PauseSpan) :
    pausedSum (spans ++ [last]) = pausedSum spans + (last.r - last.p) := by
  induction spans with
  | nil => simp [pausedSum]
  | cons sp rest ih =>
    rw [List.cons_append]
    simp only [pausedSum]
    rw [ih]
    ring

theorem pauseEvents_append (spans : List PauseSpan) (last : PauseSpan) :
    pauseEvents (spans ++ [last]) = pauseEvents spans ++ last.events := by
  induction spans with
  | nil => simp [pauseEvents]
  | cons sp rest ih =>
    rw [List.cons_append]
    simp only [pauseEvents]
    rw [ih, List.append_assoc]

/-- C3: in a Work or Break phase that is running, after any sequence of pauses
inside the phase (each a pause key at `p`, a resume key at `r`, with ticks
before and during the pause), the model is running again in the same phase,
`pausedTime` has grown by the sum of the `r - p` (from 0 when the phase was
just armed), and the remaining time that a tick computes at the instant of the
last resume equals the remaining time a tick would have computed at the
instant of the matching pause: time spent paused does not count. -/
theorem pause_resume_accumulates (env : Env) (m : model) (spans : List PauseSpan)
    (last : PauseSpan) (hs : m.state = StateTimer ∨ m.state = StateBreak)
    (hp : m.isPaused = false) (hin : InPhase env m (spans ++ [last])) :
    let m1 := run env m (pauseEvents spans)
    let m2 := run env m1 last.events
    m2 = run env m (pauseEvents (spans ++ [last])) ∧
    m2.state = m.state ∧ m2.isPaused = false ∧
    m2.startTime = m.startTime ∧ m2.totalTime = m.totalTime ∧
    m2.pausedTime = m.pausedTime + pausedSum (spans ++ [last]) ∧
    remainingAt last.r m2 = remainingAt last.p m1 := by
  intro m1 m2
  obtain ⟨hin1, hin2⟩ := InPhase_append env spans last m hin
  obtain ⟨hsame, hpa, hpt⟩ := run_spans env spans m hs hp hin1
  obtain ⟨hk1, hk2, hb, -⟩ := hin2
  have hs1 : m1.state = StateTimer ∨ m1.state = StateBreak := by
    show (run env m (pauseEvents spans)).state = _ ∨ (run env m (pauseEvents spans)).state = _
    rw [hsame.1]; exact hs
  obtain ⟨lsame, lpa, lpt⟩ := run_span env m1 last hs1 hpa hk1 hk2 hb
  have hall : m2 = run env m (pauseEvents (spans ++ [last])) := by
    rw [pauseEvents_append, run_append]
  refine ⟨hall, lsame.1.trans hsame.1, lpa, lsame.2.1.trans hsame.2.1,
    lsame.2.2.1.trans hsame.2.2.1, ?_, ?_⟩
  · show (run env m1 last.events).pausedTime = _
    rw [lpt, pausedSum_append]
    show (run env m (pauseEvents spans)).pausedTime + _ = _
    rw [hpt]
    ring
  · unfold remainingAt
    show wrap64 ((run env m1 last.events).totalTime -
      wrap64 (last.r - (run env m1 last.events).startTime -
        (run env m1 last.events).pausedTime)) = _
    rw [lpt, lsame.2.1, lsame.2.2.1]
    have e : last.r - m1.startTime - (m1.pausedTime + (last.r - last.p)) =
        last.p - m1.startTime - m1.pausedTime := by ring
    rw [e]

/-- Witness of C3: a 25 minute Work phase armed at 0, paused from 10 s to 70 s
and from 100 s to 400 s: 360 s are accumulated, and at the last resume 24
minutes and 20 seconds remain, as at the last pause. -/
theorem pause_resume_accumulates_witness :
    (demoPhase.state = StateTimer ∧ demoPhase.isPaused = false ∧ demoPhase.pausedTime = 0 ∧
      InPhase idleEnv demoPhase (demoPauses ++ [demoLastPause])) ∧
    (run idleEnv demoPhase (pauseEvents (demoPauses ++ [demoLastPause]))).pausedTime
      = 360 * Second ∧
    remainingAt demoLastPause.r
      (run idleEnv demoPhase (pauseEvents (demoPauses ++ [demoLastPause]))) = 1460 * Second ∧
    remainingAt demoLastPause.p (run idleEnv demoPhase (pauseEvents demoPauses))
      = 1460 * Second := by
  have hin : InPhase idleEnv demoPhase (demoPauses ++ [demoLastPause]) := by
    refine ⟨by decide, by decide, by decide, by decide, by decide, by decide, trivial⟩
  have h := pause_resume_accumulates idleEnv demoPhase demoPauses demoLastPause
    (Or.inl (by decide)) (by decide) hin
  dsimp only at h
  obtain ⟨e, -, -, -, -, hpt, hrem⟩ := h
  rw [e] at hpt hrem
  exact ⟨⟨by decide, by decide, by decide, hin⟩, hpt.trans (by decide), hrem.trans (by decide),
    by decide⟩

/-! ## strconv.Atoi reads decimal integers -/

theorem isDigit_not_sign (c : Char) (h : isDigit c = true) : c ≠ '-' ∧ c ≠ '+' ∧ c ≠ '.' := by
  refine ⟨?_, ?_, ?_⟩ <;> (intro hc; subst hc; revert h; decide)

theorem digitVal_le (c : Char) (h : isDigit c = true) : digitVal c ≤ 9 := by
  simp only [isDigit, Bool.and_eq_true, decide_eq_true_eq] at h
  unfold digitVal
  omega

theorem decVal_nil (acc : Nat) : decVal acc [] = acc := rfl

theorem decVal_cons (acc : Nat) (c : Char) (cs : List Char) :
    decVal acc (c :: cs) = decVal (acc * 10 + digitVal c) cs := rfl

theorem Atoi.fast_cons (c : Char) (cs : List Char) (n : Int) :
    Atoi.fast (c :: cs) n = if isDigit c then Atoi.fast cs (n * 10 + digitVal c) else none := rfl

theorem ParseUint.loop_cons (c : Char) (cs : List Char) (n : Nat) :
    ParseUint.loop (c :: cs) n =
      if isDigit c then
        if n ≥ maxUint64 / 10 + 1 then none
        else if n * 10 + digitVal c > maxUint64 then none
        else ParseUint.loop cs (n * 10 + digitVal c)
      else none := rfl

theorem decVal_ge (ds : List Char) : ∀ acc, acc ≤ decVal acc ds := by
  induction ds with
  | nil => intro acc; exact le_refl _
  | cons c cs ih =>
    intro acc
    have := ih (acc * 10 + digitVal c)
    rw [decVal_cons]
    omega

theorem decVal_lt (ds : List Char) (hd : ds.all isDigit = true) :
    ∀ acc, decVal acc ds < (acc + 1) * 10 ^ ds.length := by
  induction ds with
  | nil =>
    intro acc
    show acc < (acc + 1) * 10 ^ 0
    omega
  | cons c cs ih =>
    intro acc
    simp only [List.all_cons, Bool.and_eq_true] at hd
    have h1 := ih hd.2 (acc * 10 + digitVal c)
    have h2 := digitVal_le c hd.1
    rw [decVal_cons, List.length_cons]
    calc decVal (acc * 10 + digitVal c) cs
        < (acc * 10 + digitVal c + 1) * 10 ^ cs.length := h1
      _ ≤ ((acc + 1) * 10) * 10 ^ cs.length := by
          apply Nat.mul_le_mul_right
          omega
      _ = (acc + 1) * 10 ^ (cs.length + 1) := by ring

theorem Atoi.fast_digits (ds : List Char) (hd : ds.all isDigit = true) :
    ∀ n : Nat, Atoi.fast ds (n : Int) = some ((decVal n ds : Nat) : Int) := by
  induction ds with
  | nil => intro n; rfl
  | cons c cs ih =>
    intro n
    simp only [List.all_cons, Bool.and_eq_true] at hd
    rw [Atoi.fast_cons, decVal_cons, if_pos hd.1]
    have := ih hd.2 (n * 10 + digitVal c)
    push_cast at this
    exact this

theorem Atoi.fast_some (ds : List Char) :
    ∀ (n r : Int), Atoi.fast ds n = some r → ds.all isDigit = true := by
  induction ds with
  | nil => intro n r _; rfl
  | cons c cs ih =>
    intro n r h
    rw [Atoi.fast_cons] at h
    by_cases hc : isDigit c = true
    · rw [if_pos hc] at h
      simp [hc, ih _ _ h]
    · rw [if_neg hc] at h
      exact absurd h (by simp)

theorem ParseUint.loop_digits (ds : List Char) (hd : ds.all isDigit = true) :
    ∀ n : Nat, decVal n ds ≤ maxUint64 → ParseUint.loop ds n = some (decVal n ds) := by
  induction ds with
  | nil => intro n _; rfl
  | cons c cs ih =>
    intro n hb
    simp only [List.all_cons, Bool.and_eq_true] at hd
    rw [decVal_cons] at hb ⊢
    have hge := decVal_ge cs (n * 10 + digitVal c)
    have h1 : ¬ n ≥ maxUint64 / 10 + 1 := by
      unfold maxUint64 at hb ⊢
      omega
    have h2 : ¬ n * 10 + digitVal c > maxUint64 := by omega
    rw [ParseUint.loop_cons, if_pos hd.1, if_neg h1, if_neg h2]
    exact ih hd.2 _ hb

theorem ParseUint.loop_some (ds : List Char) :
    ∀ (n r : Nat), ParseUint.loop ds n = some r →
      ds.all isDigit = true ∧ r = decVal n ds := by
  induction ds with
  | nil =>
    intro n r h
    have h2 : some n = some r := h
    simp only [Option.some.injEq] at h2
    exact ⟨rfl, h2.symm⟩
  | cons c cs ih =>
    intro n r h
    rw [ParseUint.loop_cons] at h
    by_cases hc : isDigit c = true
    · rw [if_pos hc] at h
      split_ifs at h
      obtain ⟨i1, i2⟩ := ih _ _ h
      exact ⟨by simp [hc, i1], by rw [decVal_cons]; exact i2⟩
    · rw [if_neg hc] at h
      exact absurd h (by simp)

theorem isInteger_iff (t : List Char) :
    isInteger t = true ↔
      ∃ body, body ≠ [] ∧ body.all isDigit = true ∧
        (t = body ∨ t = '+' :: body ∨ t = '-' :: body) := by
  constructor
  · intro h
    cases t with
    | nil => simp [isInteger] at h
    | cons c cs =>
      simp only [isInteger] at h
      by_cases hs : c = '+' ∨ c = '-'
      · simp only [hs, if_true, Bool.and_eq_true, Bool.not_eq_true', List.isEmpty_eq_false] at h
        refine ⟨cs, ?_, h.2, ?_⟩
        · intro hcs
          simp [hcs] at h
        · rcases hs with hs | hs <;> simp [hs]
      · simp only [hs, if_false] at h
        exact ⟨c :: cs, by simp, h, Or.inl rfl⟩
  · rintro ⟨body, hne, hd, ht | ht | ht⟩
    · rw [ht]
      cases body with
      | nil => exact absurd rfl hne
      | cons c cs =>
        have hc : isDigit c = true := by
          simp only [List.all_cons, Bool.and_eq_true] at hd
          exact hd.1
        have := isDigit_not_sign c hc
        simp only [isInteger, this.1, this.2.1, or_self, if_false]
        exact hd
    · rw [ht]
      cases body with
      | nil => exact absurd rfl hne
      | cons c cs => simpa [isInteger] using hd
    · rw [ht]
      cases body with
      | nil => exact absurd rfl hne
      | cons c cs => simpa [isInteger] using hd

theorem length_le_byteLen (s : List Char) : s.length ≤ byteLen s := by
  induction s with
  | nil => simp [byteLen]
  | cons c cs ih =>
    have := Char.utf8Size_pos c
    simp only [byteLen, List.map_cons, List.sum_cons, List.length_cons] at ih ⊢
    omega

theorem ParseUint_some (body : List Char) (un : Nat) (h : ParseUint body = some un) :
    body ≠ [] ∧ body.all isDigit = true ∧ un = decimalValue body := by
  unfold ParseUint at h
  by_cases hb : body = []
  · simp [hb] at h
  · rw [if_neg hb] at h
    obtain ⟨h1, h2⟩ := ParseUint.loop_some body 0 un h
    exact ⟨hb, h1, h2⟩

theorem ParseUint_digits (body : List Char) (hne : body ≠ []) (hd : body.all isDigit = true)
    (hb : decimalValue body ≤ maxUint64) : ParseUint body = some (decimalValue body) := by
  unfold ParseUint
  rw [if_neg hne]
  exact ParseUint.loop_digits body hd 0 hb

theorem intValue_plain (c : Char) (cs : List Char) (hc : isDigit c = true) :
    intValue (c :: cs) = (decimalValue (c :: cs) : Int) := by
  have := isDigit_not_sign c hc
  simp [intValue, this.1, this.2.1]

theorem isInteger_plain (c : Char) (cs : List Char) (hc : ¬ (c = '+' ∨ c = '-')) :
    isInteger (c :: cs) = (c :: cs).all isDigit := by
  simp only [isInteger, hc, if_false]

theorem ParseInt_sound (t : List Char) (n : Int) (h : ParseInt t = some n) :
    isInteger t = true ∧ intValue t = n ∧ -2 ^ 63 ≤ n ∧ n < 2 ^ 63 := by
  cases t with
  | nil => simp [ParseInt] at h
  | cons c0 rest =>
    simp only [ParseInt] at h
    by_cases hs : c0 = '+' ∨ c0 = '-'
    · simp only [hs, if_true] at h
      cases hu : ParseUint rest with
      | none => simp [hu] at h
      | some un =>
        obtain ⟨hne, hd, hv⟩ := ParseUint_some rest un hu
        simp only [hu] at h
        have hint : isInteger (c0 :: rest) = true := by
          simp only [isInteger, hs, if_true, Bool.and_eq_true, Bool.not_eq_true',
            List.isEmpty_eq_false]
          exact ⟨by cases rest <;> simp_all, hd⟩
        rcases hs with hs | hs
        · subst hs
          have hneg : decide ('+' = '-') = false := by decide
          simp only [hneg, Bool.not_false, Bool.true_and, decide_eq_true_eq, Bool.false_and,
            Bool.false_eq_true, if_false] at h
          split_ifs at h with h1
          simp only [Option.some.injEq] at h
          refine ⟨hint, ?_, ?_, ?_⟩
          · simp [intValue, ← hv, h]
          · omega
          · omega
        · subst hs
          simp only [decide_True, Bool.not_true, Bool.false_and, Bool.false_eq_true, if_false,
            Bool.true_and, decide_eq_true_eq, if_true] at h
          split_ifs at h with h1
          simp only [Option.some.injEq] at h
          refine ⟨hint, ?_, ?_, ?_⟩
          · simp [intValue, ← hv, h]
          · omega
          · omega
    · simp only [hs, if_false] at h
      have hneg : decide (c0 = '-') = false := by
        simp only [decide_eq_false_iff_not]
        intro hc
        exact hs (Or.inr hc)
      cases hu : ParseUint (c0 :: rest) with
      | none => simp [hu] at h
      | some un =>
        obtain ⟨hne, hd, hv⟩ := ParseUint_some (c0 :: rest) un hu
        simp only [hu, hneg, Bool.not_false, Bool.true_and, decide_eq_true_eq, Bool.false_and,
          Bool.false_eq_true, if_false] at h
        split_ifs at h with h1
        simp only [Option.some.injEq] at h
        have hc0 : isDigit c0 = true := by
          simp only [List.all_cons, Bool.and_eq_true] at hd
          exact hd.1
        refine ⟨by rw [isInteger_plain c0 rest hs]; exact hd, ?_, ?_, ?_⟩
        · rw [intValue_plain c0 rest hc0, ← hv, h]
        · omega
        · omega

theorem ParseInt_complete (t : List Char) (hi : isInteger t = true)
    (hlo : -2 ^ 63 ≤ intValue t) (hhi : intValue t < 2 ^ 63) :
    ParseInt t = some (intValue t) := by
  cases t with
  | nil => simp [isInteger] at hi
  | cons c0 rest =>
    by_cases hs : c0 = '+' ∨ c0 = '-'
    · simp only [isInteger, hs, if_true, Bool.and_eq_true, Bool.not_eq_true',
        List.isEmpty_eq_false] at hi
      have hne : rest ≠ [] := by
        intro hr
        simp [hr] at hi
      rcases hs with hs | hs
      · subst hs
        have hv : intValue ('+' :: rest) = (decimalValue rest : Int) := by simp [intValue]
        rw [hv] at hhi ⊢
        have hb : decimalValue rest ≤ maxUint64 := by unfold maxUint64; omega
        have hneg : decide ('+' = '-') = false := by decide
        have h1 : ¬ decimalValue rest ≥ 2 ^ 63 := by omega
        simp [ParseInt, ParseUint_digits rest hne hi.2 hb, h1]
        omega
      · subst hs
        have hv : intValue ('-' :: rest) = -(decimalValue rest : Int) := by simp [intValue]
        rw [hv] at hlo ⊢
        have hb : decimalValue rest ≤ maxUint64 := by unfold maxUint64; omega
        have h1 : ¬ decimalValue rest > 2 ^ 63 := by omega
        simp [ParseInt, ParseUint_digits rest hne hi.2 hb, h1]
        omega
    · rw [isInteger_plain c0 rest hs] at hi
      have hc0 : isDigit c0 = true := by
        simp only [List.all_cons, Bool.and_eq_true] at hi
        exact hi.1
      rw [intValue_plain c0 rest hc0] at hhi ⊢
      have hb : decimalValue (c0 :: rest) ≤ maxUint64 := by unfold maxUint64; omega
      have hneg : ¬ c0 = '-' := fun hc => hs (Or.inr hc)
      have hpos : ¬ c0 = '+' := fun hc => hs (Or.inl hc)
      have h1 : ¬ decimalValue (c0 :: rest) ≥ 2 ^ 63 := by omega
      simp [ParseInt, hneg, hpos, ParseUint_digits (c0 :: rest) (by simp) hi hb, h1]
      omega

theorem Atoi_slow (t : List Char) (h : ¬ (0 < byteLen t ∧ byteLen t < 19)) :
    Atoi t = ParseInt t := by
  unfold Atoi
  simp only [h, if_false]

theorem Atoi_fast (c0 : Char) (rest : List Char)
    (h : 0 < byteLen (c0 :: rest) ∧ byteLen (c0 :: rest) < 19) :
    Atoi (c0 :: rest) =
      if (decide (c0 = '-' ∨ c0 = '+') && rest.isEmpty) = true then none
      else
        match Atoi.fast (if decide (c0 = '-' ∨ c0 = '+') = true then rest else c0 :: rest) 0 with
        | none => none
        | some n => some (if c0 = '-' then -n else n) := by
  unfold Atoi
  simp only [h, and_self, if_true]

theorem decimalValue_lt_of_short (ds : List Char) (hd : ds.all isDigit = true)
    (hl : ds.length ≤ 18) : decimalValue ds < 10 ^ 18 := by
  have h1 := decVal_lt ds hd 0
  have h2 : 10 ^ ds.length ≤ 10 ^ 18 := Nat.pow_le_pow_right (by norm_num) hl
  unfold decimalValue
  omega

theorem Atoi.fast_zero (ds : List Char) (r : Int) (h : Atoi.fast ds 0 = some r) :
    ds.all isDigit = true ∧ r = (decimalValue ds : Int) := by
  have hd := Atoi.fast_some ds 0 r h
  have h2 := Atoi.fast_digits ds hd 0
  simp only [Nat.cast_zero] at h2
  rw [h2] at h
  simp only [Option.some.injEq] at h
  exact ⟨hd, h.symm⟩

/-- Go `strconv.Atoi` accepts exactly the decimal integers (an optional sign
and at least one digit) whose value fits the 64-bit `int`, and returns the
value. -/
theorem Atoi_sound (t : List Char) (n : Int) (h : Atoi t = some n) :
    isInteger t = true ∧ intValue t = n ∧ -2 ^ 63 ≤ n ∧ n < 2 ^ 63 := by
  by_cases hp : 0 < byteLen t ∧ byteLen t < 19
  · cases t with
    | nil => simp [byteLen] at hp
    | cons c0 rest =>
      rw [Atoi_fast c0 rest hp] at h
      have hlen := length_le_byteLen (c0 :: rest)
      simp only [List.length_cons] at hlen
      by_cases hs : c0 = '-' ∨ c0 = '+'
      · have hs2 : c0 = '+' ∨ c0 = '-' := hs.symm
        simp only [hs, decide_True, Bool.true_and, if_true] at h
        by_cases he : rest.isEmpty = true
        · simp [he] at h
        · have he2 : rest.isEmpty = false := by simpa using he
          simp only [he2, Bool.false_eq_true, if_false] at h
          cases hf : Atoi.fast rest 0 with
          | none => simp [hf] at h
          | some r =>
            obtain ⟨hd, hr⟩ := Atoi.fast_zero rest r hf
            simp only [hf, Option.some.injEq] at h
            have hb := decimalValue_lt_of_short rest hd (by omega)
            have hint : isInteger (c0 :: rest) = true := by
              simp only [isInteger, hs2, if_true, Bool.and_eq_true, Bool.not_eq_true', hd,
                and_true]
              exact he2
            rcases hs with hs | hs
            · subst hs
              simp only [if_true] at h
              refine ⟨hint, ?_, by omega, by omega⟩
              simp [intValue, ← h, hr]
            · subst hs
              have : ¬ ('+' = '-') := by decide
              simp only [this, if_false] at h
              refine ⟨hint, ?_, by omega, by omega⟩
              simp [intValue, ← h, hr]
      · have hm : ¬ c0 = '-' := fun hc => hs (Or.inl hc)
        have hs2 : ¬ (c0 = '+' ∨ c0 = '-') := fun hc => hs hc.symm
        simp only [hs, decide_False, Bool.false_and, Bool.false_eq_true, if_false] at h
        cases hf : Atoi.fast (c0 :: rest) 0 with
        | none => simp [hf] at h
        | some r =>
          obtain ⟨hd, hr⟩ := Atoi.fast_zero (c0 :: rest) r hf
          simp only [hf, hm, if_false, Option.some.injEq] at h
          have hb := decimalValue_lt_of_short (c0 :: rest) hd (by simp only [List.length_cons]; omega)
          have hc0 : isDigit c0 = true := by
            simp only [List.all_cons, Bool.and_eq_true] at hd
            exact hd.1
          refine ⟨by rw [isInteger_plain c0 rest hs2]; exact hd, ?_, ?_, ?_⟩
          · rw [intValue_plain c0 rest hc0, ← h, hr]
          · omega
          · omega
  · rw [Atoi_slow t hp] at h
    exact ParseInt_sound t n h

theorem Atoi_complete (t : List Char) (hi : isInteger t = true)
    (hlo : -2 ^ 63 ≤ intValue t) (hhi : intValue t < 2 ^ 63) :
    Atoi t = some (intValue t) := by
  by_cases hp : 0 < byteLen t ∧ byteLen t < 19
  · cases t with
    | nil => simp [isInteger] at hi
    | cons c0 rest =>
      rw [Atoi_fast c0 rest hp]
      by_cases hs : c0 = '+' ∨ c0 = '-'
      · have hs2 : c0 = '-' ∨ c0 = '+' := hs.symm
        simp only [isInteger, hs, if_true, Bool.and_eq_true, Bool.not_eq_true'] at hi
        simp only [hs2, decide_True, Bool.true_and, hi.1, Bool.false_eq_true, if_false, if_true]
        have h2 := Atoi.fast_digits rest hi.2 0
        simp only [Nat.cast_zero] at h2
        rw [h2]
        rcases hs with hs | hs
        · subst hs
          have : ¬ ('+' = '-') := by decide
          simp [intValue, decimalValue, this]
        · subst hs
          simp [intValue, decimalValue]
      · rw [isInteger_plain c0 rest hs] at hi
        have hs2 : ¬ (c0 = '-' ∨ c0 = '+') := fun hc => hs hc.symm
        have hm : ¬ c0 = '-' := fun hc => hs (Or.inr hc)
        have hc0 : isDigit c0 = true := by
          simp only [List.all_cons, Bool.and_eq_true] at hi
          exact hi.1
        simp only [hs2, decide_False, Bool.false_and, Bool.false_eq_true, if_false]
        have h2 := Atoi.fast_digits (c0 :: rest) hi 0
        simp only [Nat.cast_zero] at h2
        rw [h2, intValue_plain c0 rest hc0]
        simp [hm, decimalValue]
  · rw [Atoi_slow t hp]
    exact ParseInt_complete t hi hlo hhi

/-! ## time.ParseDuration: the parts of a round -/

theorem leadingInt_cons (c : Char) (cs : List Char) (x : Nat) :
    leadingInt (c :: cs) x =
      if isDigit c then
        if x > 2 ^ 63 / 10 then none
        else if x * 10 + digitVal c > 2 ^ 63 then none
        else leadingInt cs (x * 10 + digitVal c)
      else some (x, c :: cs) := rfl

theorem leadingFraction_cons (c : Char) (cs : List Char) (x k : Nat) (o : Bool) :
    leadingFraction (c :: cs) x k o =
      if isDigit c then
        if o then leadingFraction cs x k true
        else if x > (2 ^ 63 - 1) / 10 then leadingFraction cs x k true
        else if x * 10 + digitVal c > 2 ^ 63 then leadingFraction cs x k true
        else leadingFraction cs (x * 10 + digitVal c) (k + 1) false
      else (x, k, c :: cs) := rfl

theorem leadingInt_digits (ds : List Char) (hd : ds.all isDigit = true) (rest : List Char)
    (hr : noDigitHead rest) :
    ∀ x, decVal x ds ≤ 2 ^ 63 → leadingInt (ds ++ rest) x = some (decVal x ds, rest) := by
  induction ds with
  | nil =>
    intro x _
    cases rest with
    | nil => rfl
    | cons c cs =>
      have hc : isDigit c = false := hr c (by simp)
      rw [List.nil_append, leadingInt_cons]
      simp [hc, decVal_nil]
  | cons c cs ih =>
    intro x hb
    simp only [List.all_cons, Bool.and_eq_true] at hd
    rw [decVal_cons] at hb ⊢
    have hge := decVal_ge cs (x * 10 + digitVal c)
    have h1 : ¬ x > 2 ^ 63 / 10 := by omega
    have h2 : ¬ x * 10 + digitVal c > 2 ^ 63 := by omega
    rw [List.cons_append, leadingInt_cons, if_pos hd.1, if_neg h1, if_neg h2]
    exact ih hd.2 _ hb

theorem leadingInt_some (s : List Char) :
    ∀ (x v : Nat) (s1 : List Char), leadingInt s x = some (v, s1) →
      ∃ ds, s = ds ++ s1 ∧ ds.all isDigit = true ∧ v = decVal x ds := by
  induction s with
  | nil =>
    intro x v s1 h
    have h2 : some (x, ([] : List Char)) = some (v, s1) := h
    simp only [Option.some.injEq, Prod.mk.injEq] at h2
    exact ⟨[], by simp [← h2.2], rfl, h2.1.symm⟩
  | cons c cs ih =>
    intro x v s1 h
    rw [leadingInt_cons] at h
    by_cases hc : isDigit c = true
    · rw [if_pos hc] at h
      split_ifs at h
      obtain ⟨ds, e1, e2, e3⟩ := ih _ _ _ h
      exact ⟨c :: ds, by simp [e1], by simp [hc, e2], by rw [decVal_cons]; exact e3⟩
    · rw [if_neg hc] at h
      simp only [Option.some.injEq, Prod.mk.injEq] at h
      exact ⟨[], by simp [← h.2], rfl, h.1.symm⟩

theorem leadingFraction_some (s : List Char) :
    ∀ (x k : Nat) (o : Bool), ∃ fs, s = fs ++ (leadingFraction s x k o).2.2 ∧
      fs.all isDigit = true := by
  induction s with
  | nil => intro x k o; exact ⟨[], rfl, rfl⟩
  | cons c cs ih =>
    intro x k o
    rw [leadingFraction_cons]
    by_cases hc : isDigit c = true
    · rw [if_pos hc]
      split_ifs
      · obtain ⟨fs, e1, e2⟩ := ih x k true
        exact ⟨c :: fs, by rw [List.cons_append, ← e1], by simp [hc, e2]⟩
      · obtain ⟨fs, e1, e2⟩ := ih x k true
        exact ⟨c :: fs, by rw [List.cons_append, ← e1], by simp [hc, e2]⟩
      · obtain ⟨fs, e1, e2⟩ := ih x k true
        exact ⟨c :: fs, by rw [List.cons_append, ← e1], by simp [hc, e2]⟩
      · obtain ⟨fs, e1, e2⟩ := ih (x * 10 + digitVal c) (k + 1) false
        exact ⟨c :: fs, by rw [List.cons_append, ← e1], by simp [hc, e2]⟩
    · rw [if_neg hc]
      exact ⟨[], rfl, rfl⟩

theorem takeWhile_append_stop {α : Type} (p : α → Bool) (xs ys : List α)
    (hx : ∀ x ∈ xs, p x = true) (hy : ∀ y ∈ ys.head?, p y = false) :
    (xs ++ ys).takeWhile p = xs ∧ (xs ++ ys).dropWhile p = ys := by
  induction xs with
  | nil =>
    cases ys with
    | nil => exact ⟨rfl, rfl⟩
    | cons y ys =>
      have := hy y (by simp)
      simp [List.takeWhile_cons, List.dropWhile_cons, this]
  | cons x xs ih =>
    have hx1 := hx x (List.mem_cons_self x xs)
    obtain ⟨i1, i2⟩ := ih (fun z hz => hx z (List.mem_cons_of_mem x hz))
    simp [List.takeWhile_cons, List.dropWhile_cons, hx1, i1, i2]

theorem unitEnd_false (c : Char) (h : unitEnd c = false) : c ≠ '.' ∧ isDigit c = false := by
  simp only [unitEnd, Bool.or_eq_false_iff, decide_eq_false_iff_not] at h
  exact h

/-- A round of `time.ParseDuration` on a whole number followed by a unit: the
accumulator grows by the number times the unit. -/
theorem ParseDuration.round_unit (ff : FloatFrac) (ds : List Char) (hne : ds ≠ [])
    (hd : ds.all isDigit = true) (uc : Char) (us rest : List Char) (unit d : Nat)
    (hu : ∀ c ∈ uc :: us, unitEnd c = false) (hm : unitMap (uc :: us) = some unit)
    (hr : ∀ c ∈ rest.head?, unitEnd c = true)
    (hv : decimalValue ds ≤ 2 ^ 63 / unit) (hsum : d + decimalValue ds * unit ≤ 2 ^ 63) :
    ParseDuration.round ff (ds ++ (uc :: us) ++ rest) d =
      some (rest, d + decimalValue ds * unit) := by
  obtain ⟨huc1, huc2⟩ := unitEnd_false uc (hu uc (List.mem_cons_self uc us))
  have hdiv : 2 ^ 63 / unit ≤ 2 ^ 63 := Nat.div_le_self _ _
  have hli : leadingInt (ds ++ (uc :: us) ++ rest) 0 =
      some (decimalValue ds, uc :: (us ++ rest)) := by
    rw [List.append_assoc]
    exact leadingInt_digits ds hd ((uc :: us) ++ rest)
      (by intro c hc; simp at hc; subst hc; exact huc2) 0 (le_trans hv hdiv)
  have htd := takeWhile_append_stop (fun c => !unitEnd c) (uc :: us) rest
    (by intro x hx; simp [hu x hx]) (by intro y hy; simp [hr y hy])
  rw [List.cons_append] at htd
  cases ds with
  | nil => exact absurd rfl hne
  | cons c cs =>
    have hc : isDigit c = true := by
      simp only [List.all_cons, Bool.and_eq_true] at hd
      exact hd.1
    have hlen : ((c :: cs) ++ (uc :: us) ++ rest).length ≠ (uc :: (us ++ rest)).length := by
      simp only [List.length_append, List.length_cons]
      omega
    have hmod : (d + decimalValue (c :: cs) * unit) % 2 ^ 64 = d + decimalValue (c :: cs) * unit := by
      apply Nat.mod_eq_of_lt
      omega
    have hgt : ¬ d + decimalValue (c :: cs) * unit > 2 ^ 63 := by omega
    have hvv : ¬ decimalValue (c :: cs) > 2 ^ 63 / unit := by omega
    unfold ParseDuration.round
    rw [hli]
    simp only [ParseDuration.fraction, List.cons_append, hc, Bool.or_true, Bool.not_true,
      Bool.false_eq_true, if_false,
      huc1, htd.1, htd.2, hm, List.isEmpty_cons, gt_iff_lt, lt_self_iff_false, false_and,
      hlen, ne_eq, not_false_eq_true, decide_True, Bool.false_and, hmod, hgt, hvv]
    simp only [← List.cons_append, List.append_assoc] at hlen ⊢
    simp [hlen, hmod, hgt, hvv]
    omega

/-! ## time.ParseDuration: the loop -/

theorem ParseDuration.loop_nil (ff : FloatFrac) (fuel d : Nat) :
    ParseDuration.loop ff fuel [] d = LoopResult.total d := by
  cases fuel <;> rfl

theorem ParseDuration.loop_succ (ff : FloatFrac) (fuel : Nat) (c : Char) (cs : List Char)
    (d : Nat) :
    ParseDuration.loop ff (fuel + 1) (c :: cs) d =
      match ParseDuration.round ff (c :: cs) d with
      | none => LoopResult.invalid
      | some (s4, d1) => ParseDuration.loop ff fuel s4 d1 := rfl

theorem ParseDuration.loop_step (ff : FloatFrac) (fuel : Nat) (s s4 : List Char) (d d1 : Nat)
    (hs : s ≠ []) (hf : 0 < fuel) (hr : ParseDuration.round ff s d = some (s4, d1)) :
    ParseDuration.loop ff fuel s d = ParseDuration.loop ff (fuel - 1) s4 d1 := by
  cases s with
  | nil => exact absurd rfl hs
  | cons c cs =>
    cases fuel with
    | zero => omega
    | succ f =>
      rw [ParseDuration.loop_succ, hr]
      rfl

theorem TrimSpace_eq_self (s : List Char) (h1 : ∀ c ∈ s.head?, IsSpace c = false)
    (h2 : ∀ c ∈ s.getLast?, IsSpace c = false) : TrimSpace s = s := by
  have e1 : s.dropWhile IsSpace = s := by
    cases s with
    | nil => rfl
    | cons c cs =>
      have := h1 c (by simp)
      simp [List.dropWhile_cons, this]
  have e2 : s.reverse.dropWhile IsSpace = s.reverse := by
    cases hr : s.reverse with
    | nil => rfl
    | cons c cs =>
      have hc : c ∈ s.getLast? := by
        rw [← List.head?_reverse, hr]
        simp
      have := h2 c hc
      simp [List.dropWhile_cons, this]
  unfold TrimSpace
  rw [e1, e2, List.reverse_reverse]

theorem isDigit_not_space (c : Char) (h : isDigit c = true) : IsSpace c = false := by
  simp only [isDigit, Bool.and_eq_true, decide_eq_true_eq] at h
  simp only [IsSpace, Bool.or_eq_false_iff, decide_eq_false_iff_not]
  omega

theorem parseDuration_of_not_integer (ff : FloatFrac) (s : List Char)
    (hne : TrimSpace s ≠ []) (hi : isInteger (TrimSpace s) = false) :
    parseDuration ff s = ParseDuration ff (TrimSpace s) := by
  unfold parseDuration
  simp only [hne, if_false]
  cases ha : Atoi (TrimSpace s) with
  | none => rfl
  | some n =>
    have := (Atoi_sound _ n ha).1
    rw [hi] at this
    exact absurd this (by simp)

theorem ParseDuration_unsigned (ff : FloatFrac) (c : Char) (cs : List Char)
    (hc : isDigit c = true) (h0 : c :: cs ≠ ['0']) :
    ParseDuration ff (c :: cs) =
      match ParseDuration.loop ff (c :: cs).length (c :: cs) 0 with
      | .total d => if d > 2 ^ 63 - 1 then none else some (d : Int)
      | .invalid => none
      | .exhausted => none := by
  have hs := isDigit_not_sign c hc
  unfold ParseDuration
  simp only [List.head?_cons, Option.some.injEq, hs.1, hs.2.1, or_self, if_false, h0,
    decide_False, Bool.false_eq_true]
  simp

/-! ## parseDuration on whole numbers with units -/

theorem isInteger_false_of_letter (ds : List Char) (hne : ds ≠ []) (hd : ds.all isDigit = true)
    (u : Char) (rest : List Char) (hu : isDigit u = false) :
    isInteger (ds ++ u :: rest) = false := by
  cases ds with
  | nil => exact absurd rfl hne
  | cons c cs =>
    have hc : isDigit c = true := by
      simp only [List.all_cons, Bool.and_eq_true] at hd
      exact hd.1
    have hs := isDigit_not_sign c hc
    rw [List.cons_append, isInteger_plain c _ (by simp [hs.1, hs.2.1])]
    simp [hu]

theorem head_digit_of_digits (ds rest : List Char) (hne : ds ≠ []) (hd : ds.all isDigit = true) :
    ∀ c ∈ (ds ++ rest).head?, isDigit c = true := by
  cases ds with
  | nil => exact absurd rfl hne
  | cons c cs =>
    intro x hx
    simp only [List.cons_append, List.head?_cons, Option.mem_def, Option.some.injEq] at hx
    subst hx
    simp only [List.all_cons, Bool.and_eq_true] at hd
    exact hd.1

/-- The texts `<n><unit>` and `<n1><unit1><n2><unit2>` of whole numbers with
units: `parseDuration` returns the sum of the components when it fits. -/
theorem parseDuration_two_units (ff : FloatFrac) (d1 d2 : List Char) (u1 u2 : Char) (n1 n2 : Nat)
    (h1 : d1 ≠ [] ∧ d1.all isDigit = true) (h2 : d2 ≠ [] ∧ d2.all isDigit = true)
    (hu1 : unitEnd u1 = false ∧ IsSpace u1 = false ∧ unitMap [u1] = some n1)
    (hu2 : unitEnd u2 = false ∧ IsSpace u2 = false ∧ unitMap [u2] = some n2)
    (hp1 : 0 < n1) (hp2 : 0 < n2)
    (hr : decimalValue d1 * n1 + decimalValue d2 * n2 ≤ 2 ^ 63 - 1) :
    parseDuration ff (d1 ++ u1 :: (d2 ++ [u2])) =
      some ((decimalValue d1 * n1 + decimalValue d2 * n2 : Nat) : Int) := by
  have hd1 : isDigit u1 = false := (unitEnd_false u1 hu1.1).2
  have hhead := head_digit_of_digits d1 (u1 :: (d2 ++ [u2])) h1.1 h1.2
  have htrim : TrimSpace (d1 ++ u1 :: (d2 ++ [u2])) = d1 ++ u1 :: (d2 ++ [u2]) := by
    apply TrimSpace_eq_self
    · intro c hc
      exact isDigit_not_space c (hhead c hc)
    · intro c hc
      have : (d1 ++ u1 :: (d2 ++ [u2])).getLast? = some u2 := by
        have e : d1 ++ u1 :: (d2 ++ [u2]) = (d1 ++ u1 :: d2) ++ [u2] := by simp
        rw [e, List.getLast?_concat]
      rw [this] at hc
      simp only [Option.mem_def, Option.some.injEq] at hc
      subst hc
      exact hu2.2.1
  have hne : d1 ++ u1 :: (d2 ++ [u2]) ≠ [] := by
    cases d1 <;> simp
  have hint := isInteger_false_of_letter d1 h1.1 h1.2 u1 (d2 ++ [u2]) hd1
  rw [parseDuration_of_not_integer ff _ (by rw [htrim]; exact hne) (by rw [htrim]; exact hint),
    htrim]
  have hv1 : decimalValue d1 ≤ 2 ^ 63 / n1 := by
    rw [Nat.le_div_iff_mul_le hp1]
    omega
  have hv2 : decimalValue d2 ≤ 2 ^ 63 / n2 := by
    rw [Nat.le_div_iff_mul_le hp2]
    omega
  have r1 := ParseDuration.round_unit ff d1 h1.1 h1.2 u1 [] (d2 ++ [u2]) n1 0
    (by intro c hc; simp only [List.mem_singleton] at hc; subst hc; exact hu1.1) hu1.2.2
    (by
      intro c hc
      have := head_digit_of_digits d2 [u2] h2.1 h2.2 c hc
      simp [unitEnd, this])
    hv1 (by omega)
  have r2 := ParseDuration.round_unit ff d2 h2.1 h2.2 u2 [] [] n2 (0 + decimalValue d1 * n1)
    (by intro c hc; simp only [List.mem_singleton] at hc; subst hc; exact hu2.1) hu2.2.2
    (by intro c hc; simp at hc) hv2 (by omega)
  have e1 : d1 ++ [u1] ++ (d2 ++ [u2]) = d1 ++ u1 :: (d2 ++ [u2]) := by simp
  have e2 : d2 ++ [u2] ++ [] = d2 ++ [u2] := by simp
  rw [e1] at r1
  rw [e2] at r2
  have hlen : (d1 ++ u1 :: (d2 ++ [u2])).length ≥ 2 := by
    simp only [List.length_append, List.length_cons, List.length_nil]
    omega
  have hloop : ParseDuration.loop ff (d1 ++ u1 :: (d2 ++ [u2])).length
      (d1 ++ u1 :: (d2 ++ [u2])) 0 =
      LoopResult.total (0 + decimalValue d1 * n1 + decimalValue d2 * n2) := by
    rw [ParseDuration.loop_step ff _ _ _ _ _ hne (by omega) r1,
      ParseDuration.loop_step ff _ _ _ _ _ (by cases d2 <;> simp) (by omega) r2,
      ParseDuration.loop_nil]
  cases hd : d1 with
  | nil => exact absurd hd h1.1
  | cons c cs =>
    have hc : isDigit c = true := by
      have := h1.2
      rw [hd] at this
      simp only [List.all_cons, Bool.and_eq_true] at this
      exact this.1
    rw [hd] at hloop
    rw [List.cons_append, ParseDuration_unsigned ff c _ hc (by cases cs <;> simp)]
    rw [List.cons_append] at hloop
    rw [hloop]
    have hle : ¬ 0 + decimalValue (c :: cs) * n1 + decimalValue d2 * n2 > 2 ^ 63 - 1 := by
      rw [hd] at hr
      omega
    simp only [hle, if_false]
    simp

theorem parseDuration_one_unit (ff : FloatFrac) (ds : List Char) (u : Char) (n : Nat)
    (h1 : ds ≠ [] ∧ ds.all isDigit = true)
    (hu : unitEnd u = false ∧ IsSpace u = false ∧ unitMap [u] = some n) (hp : 0 < n)
    (hr : decimalValue ds * n ≤ 2 ^ 63 - 1) :
    parseDuration ff (ds ++ [u]) = some ((decimalValue ds * n : Nat) : Int) := by
  have hd1 : isDigit u = false := (unitEnd_false u hu.1).2
  have hhead := head_digit_of_digits ds [u] h1.1 h1.2
  have htrim : TrimSpace (ds ++ [u]) = ds ++ [u] := by
    apply TrimSpace_eq_self
    · intro c hc
      exact isDigit_not_space c (hhead c hc)
    · intro c hc
      rw [List.getLast?_concat] at hc
      simp only [Option.mem_def, Option.some.injEq] at hc
      subst hc
      exact hu.2.1
  have hne : ds ++ [u] ≠ [] := by
    cases ds <;> simp
  have hint := isInteger_false_of_letter ds h1.1 h1.2 u [] hd1
  rw [parseDuration_of_not_integer ff _ (by rw [htrim]; exact hne) (by rw [htrim]; exact hint),
    htrim]
  have hv : decimalValue ds ≤ 2 ^ 63 / n := by
    rw [Nat.le_div_iff_mul_le hp]
    omega
  have r1 := ParseDuration.round_unit ff ds h1.1 h1.2 u [] [] n 0
    (by intro c hc; simp only [List.mem_singleton] at hc; subst hc; exact hu.1) hu.2.2
    (by intro c hc; simp at hc) hv (by omega)
  have e1 : ds ++ [u] ++ [] = ds ++ [u] := by simp
  rw [e1] at r1
  have hlen : (ds ++ [u]).length ≥ 1 := by
    simp only [List.length_append, List.length_cons, List.length_nil]
    omega
  have hloop : ParseDuration.loop ff (ds ++ [u]).length (ds ++ [u]) 0 =
      LoopResult.total (0 + decimalValue ds * n) := by
    rw [ParseDuration.loop_step ff _ _ _ _ _ hne (by omega) r1, ParseDuration.loop_nil]
  cases hd : ds with
  | nil => exact absurd hd h1.1
  | cons c cs =>
    have hc : isDigit c = true := by
      have := h1.2
      rw [hd] at this
      simp only [List.all_cons, Bool.and_eq_true] at this
      exact this.1
    rw [hd] at hloop
    have hn0 : c :: (cs ++ [u]) ≠ ['0'] := by
      cases cs <;> simp
    rw [List.cons_append, ParseDuration_unsigned ff c _ hc hn0]
    rw [List.cons_append] at hloop
    rw [hloop]
    have hle : ¬ 0 + decimalValue (c :: cs) * n > 2 ^ 63 - 1 := by
      rw [hd] at hr
      omega
    simp only [hle, if_false]
    simp

theorem digitChar_digit : ∀ k, k < 10 →
    isDigit (Nat.digitChar k) = true ∧ digitVal (Nat.digitChar k) = k := by
  decide

theorem toDigitsCore_succ (fuel n : Nat) (ds : List Char) :
    Nat.toDigitsCore 10 (fuel + 1) n ds =
      if n / 10 = 0 then Nat.digitChar (n % 10) :: ds
      else Nat.toDigitsCore 10 fuel (n / 10) (Nat.digitChar (n % 10) :: ds) := rfl

theorem toDigitsCore_numeral (fuel : Nat) :
    ∀ (n : Nat) (ds : List Char), n < fuel → ds.all isDigit = true →
      (Nat.toDigitsCore 10 fuel n ds).all isDigit = true ∧
      decVal 0 (Nat.toDigitsCore 10 fuel n ds) = decVal n ds ∧
      Nat.toDigitsCore 10 fuel n ds ≠ [] := by
  induction fuel with
  | zero => intro n ds h; omega
  | succ f ih =>
    intro n ds hn hd
    obtain ⟨k1, k2⟩ := digitChar_digit (n % 10) (Nat.mod_lt n (by norm_num))
    rw [toDigitsCore_succ]
    by_cases h0 : n / 10 = 0
    · rw [if_pos h0]
      refine ⟨by simp [k1, hd], ?_, by simp⟩
      rw [decVal_cons, k2]
      congr 1
      omega
    · rw [if_neg h0]
      obtain ⟨i1, i2, i3⟩ := ih (n / 10) (Nat.digitChar (n % 10) :: ds) (by omega)
        (by simp [k1, hd])
      refine ⟨i1, ?_, i3⟩
      rw [i2, decVal_cons, k2]
      congr 1
      omega

/-- The decimal text `Nat.repr n` of a natural number is a non-empty digit
string whose value is `n`. -/
theorem repr_numeral (n : Nat) :
    (Nat.repr n).toList ≠ [] ∧ (Nat.repr n).toList.all isDigit = true ∧
    decimalValue (Nat.repr n).toList = n := by
  have e : (Nat.repr n).toList = Nat.toDigitsCore 10 (n + 1) n [] := rfl
  obtain ⟨h1, h2, h3⟩ := toDigitsCore_numeral (n + 1) n [] (by omega) rfl
  rw [e]
  exact ⟨h3, h1, h2⟩

/-- Texts `<h>h<m>m` and `<s>s` for any decimal numerals `dh`, `dm`, `ds`
(leading zeros allowed): `parseDuration` returns the sum of the components
when it fits a 64-bit count of nanoseconds. -/
theorem parseDuration_numerals (ff : FloatFrac) (dh dm ds : List Char)
    (hh : dh ≠ [] ∧ dh.all isDigit = true) (hm : dm ≠ [] ∧ dm.all isDigit = true)
    (hs : ds ≠ [] ∧ ds.all isDigit = true)
    (hrange : ((decimalValue dh * 60 + decimalValue dm : Nat) : Int) * Minute ≤ 2 ^ 63 - 1)
    (hrange2 : (decimalValue ds : Int) * Second ≤ 2 ^ 63 - 1) :
    parseDuration ff (dh ++ 'h' :: (dm ++ ['m'])) =
      some (((decimalValue dh * 60 + decimalValue dm : Nat) : Int) * Minute) ∧
    parseDuration ff (ds ++ ['s']) = some ((decimalValue ds : Int) * Second) := by
  constructor
  · have hr : decimalValue dh * 3600000000000 + decimalValue dm * 60000000000 ≤ 2 ^ 63 - 1 := by
      simp only [Minute, Second] at hrange
      push_cast at hrange
      omega
    rw [parseDuration_two_units ff dh dm 'h' 'm' 3600000000000 60000000000 hh hm
      ⟨by decide, by decide, by decide⟩ ⟨by decide, by decide, by decide⟩ (by norm_num)
      (by norm_num) hr]
    refine congrArg some ?_
    simp only [Minute, Second]
    push_cast
    ring
  · have hr : decimalValue ds * 1000000000 ≤ 2 ^ 63 - 1 := by
      simp only [Second] at hrange2
      omega
    rw [parseDuration_one_unit ff ds 's' 1000000000 hs ⟨by decide, by decide, by decide⟩
      (by norm_num) hr]
    refine congrArg some ?_
    simp only [Second]
    push_cast
    ring

/-- C5: text that is not a plain integer is parsed as a compound expression
with unit suffixes, as the sum of its components.  For all natural numbers
`h`, `m`, `s` within range (the results fit a 64-bit count of nanoseconds),
the text `<h>h<m>m` yields `h * 60 + m` minutes and the text `<s>s` yields `s`
seconds, where `<n>` is the decimal text of `n`. -/
theorem parseDuration_compound (ff : FloatFrac) (h m s : Nat)
    (hrange : ((h * 60 + m : Nat) : Int) * Minute ≤ 2 ^ 63 - 1)
    (hrange2 : (s : Int) * Second ≤ 2 ^ 63 - 1) :
    parseDuration ff ((Nat.repr h).toList ++ 'h' :: ((Nat.repr m).toList ++ ['m'])) =
      some (((h * 60 + m : Nat) : Int) * Minute) ∧
    parseDuration ff ((Nat.repr s).toList ++ ['s']) = some ((s : Int) * Second) := by
  obtain ⟨a1, a2, a3⟩ := repr_numeral h
  obtain ⟨b1, b2, b3⟩ := repr_numeral m
  obtain ⟨c1, c2, c3⟩ := repr_numeral s
  have key := parseDuration_numerals ff (Nat.repr h).toList (Nat.repr m).toList
    (Nat.repr s).toList ⟨a1, a2⟩ ⟨b1, b2⟩ ⟨c1, c2⟩ (by rw [a3, b3]; exact hrange)
    (by rw [c3]; exact hrange2)
  rw [a3, b3, c3] at key
  exact key

/-- Witness of C5: `parseDuration "1h30m"` is 90 minutes and
`parseDuration "90s"` is 90 seconds. -/
theorem parseDuration_compound_witness :
    (((1 * 60 + 30 : Nat) : Int) * Minute ≤ 2 ^ 63 - 1 ∧ ((90 : Nat) : Int) * Second ≤ 2 ^ 63 - 1) ∧
    parseDuration exactFrac "1h30m".toList = some (90 * Minute) ∧
    parseDuration exactFrac "90s".toList = some (90 * Second) := by
  have h := parseDuration_compound exactFrac 1 30 90 (by decide) (by decide)
  exact ⟨⟨by decide, by decide⟩, h.1, h.2⟩

/-! ## parseDuration on plain integers -/

theorem parseDuration_integer (ff : FloatFrac) (s : List Char)
    (hi : isInteger (TrimSpace s) = true) (hlo : -2 ^ 63 ≤ intValue (TrimSpace s))
    (hhi : intValue (TrimSpace s) < 2 ^ 63) :
    parseDuration ff s = some (wrap64 (intValue (TrimSpace s) * Minute)) := by
  have hne : TrimSpace s ≠ [] := by
    intro h
    rw [h] at hi
    simp [isInteger] at hi
  unfold parseDuration
  simp only [hne, if_false, Atoi_complete _ hi hlo hhi]

/-- C4 (amended): for every text whose whitespace-trimmed form is a plain
non-negative decimal integer `n` with `n ≤ 153722867` (so that `n` minutes fit
a 64-bit count of nanoseconds), `parseDuration` succeeds and returns exactly
`n` whole minutes. -/
theorem parseDuration_plain_minutes (ff : FloatFrac) (s : List Char) (n : Nat)
    (hne : TrimSpace s ≠ []) (hd : (TrimSpace s).all isDigit = true)
    (hv : decimalValue (TrimSpace s) = n) (hn : n ≤ 153722867) :
    parseDuration ff s = some ((n : Int) * Minute) := by
  cases ht : TrimSpace s with
  | nil => exact absurd ht hne
  | cons c cs =>
    rw [ht] at hd hv
    have hc : isDigit c = true := by
      simp only [List.all_cons, Bool.and_eq_true] at hd
      exact hd.1
    have hs := isDigit_not_sign c hc
    have hi : isInteger (TrimSpace s) = true := by
      rw [ht, isInteger_plain c cs (by simp [hs.1, hs.2.1])]
      exact hd
    have hval : intValue (TrimSpace s) = (n : Int) := by
      rw [ht, intValue_plain c cs hc, hv]
    rw [parseDuration_integer ff s hi (by rw [hval]; omega) (by rw [hval]; omega), hval]
    refine congrArg some ?_
    apply wrap64_eq
    · simp only [Minute, Second]
      omega
    · simp only [Minute, Second]
      omega

/-- Witness of C4 (amended): `parseDuration "25"` is 25 minutes, and so is
`parseDuration "25m"`. -/
theorem parseDuration_plain_minutes_witness :
    (TrimSpace "25".toList ≠ [] ∧ (TrimSpace "25".toList).all isDigit = true ∧
      decimalValue (TrimSpace "25".toList) = 25) ∧
    parseDuration exactFrac "25".toList = some (25 * Minute) ∧
    parseDuration exactFrac "25m".toList = parseDuration exactFrac "25".toList :=
  ⟨⟨by decide, by decide, by decide⟩,
    parseDuration_plain_minutes exactFrac "25".toList 25 (by decide) (by decide) (by decide)
      (by decide),
    by decide⟩

/-- Counterexample to C4 as stated: the plain integer 153722868 is read as a
negative span (the product with `time.Minute` wraps around), not as 153722868
minutes; and the plain integer 9223372036854775808 is rejected. -/
theorem parseDuration_plain_minutes_overflow :
    ((TrimSpace "153722868".toList).all isDigit = true ∧
      decimalValue (TrimSpace "153722868".toList) = 153722868 ∧
      parseDuration exactFrac "153722868".toList = some (-9223371993709551616) ∧
      parseDuration exactFrac "153722868".toList ≠ some (153722868 * Minute)) ∧
    ((TrimSpace "9223372036854775808".toList).all isDigit = true ∧
      decimalValue (TrimSpace "9223372036854775808".toList) = 9223372036854775808 ∧
      parseDuration exactFrac "9223372036854775808".toList = none) := by
  decide

/-! ## What time.ParseDuration accepts is well formed -/

theorem ParseDuration.fraction_spec (s1 : List Char) :
    ∃ (dot : Bool) (fs : List Char),
      s1 = (if dot then '.' :: fs else []) ++ (ParseDuration.fraction s1).2.2.1 ∧
      fs.all isDigit = true ∧ (dot = false → fs = []) ∧
      ((ParseDuration.fraction s1).2.2.2 = true → fs ≠ []) := by
  cases s1 with
  | nil => exact ⟨false, [], by simp [ParseDuration.fraction], rfl, fun _ => rfl, by
      simp [ParseDuration.fraction]⟩
  | cons c1 s2 =>
    by_cases hc : c1 = '.'
    · subst hc
      obtain ⟨fs, e1, e2⟩ := leadingFraction_some s2 0 0 false
      refine ⟨true, fs, ?_, e2, by simp, ?_⟩
      · simp only [ParseDuration.fraction, if_true, List.cons_append, List.cons.injEq, true_and]
        exact e1
      · simp only [ParseDuration.fraction, if_true, decide_eq_true_eq]
        intro hlen hfs
        rw [hfs, List.nil_append] at e1
        exact hlen (congrArg List.length e1)
    · exact ⟨false, [], by simp [ParseDuration.fraction, hc], rfl, fun _ => rfl, by
        simp [ParseDuration.fraction, hc]⟩

theorem ParseDuration.round_parts (ff : FloatFrac) (s s4 : List Char) (d d1 : Nat)
    (h : ParseDuration.round ff s d = some (s4, d1)) :
    ∃ v s1 unit, leadingInt s 0 = some (v, s1) ∧
      (s.length ≠ s1.length ∨ (ParseDuration.fraction s1).2.2.2 = true) ∧
      List.takeWhile (fun c => !unitEnd c) (ParseDuration.fraction s1).2.2.1 ≠ [] ∧
      unitMap (List.takeWhile (fun c => !unitEnd c) (ParseDuration.fraction s1).2.2.1)
        = some unit ∧
      s4 = List.dropWhile (fun c => !unitEnd c) (ParseDuration.fraction s1).2.2.1 := by
  unfold ParseDuration.round at h
  cases s with
  | nil => simp at h
  | cons c cs =>
    simp only at h
    by_cases h0 : (!(decide (c = '.') || isDigit c)) = true
    · rw [if_pos h0] at h
      exact absurd h (by simp)
    · rw [if_neg h0] at h
      cases hli : leadingInt (c :: cs) 0 with
      | none => simp [hli] at h
      | some p =>
        obtain ⟨v, s1⟩ := p
        simp only [hli] at h
        by_cases h1 : (!decide ((c :: cs).length ≠ s1.length) &&
            !(ParseDuration.fraction s1).2.2.2) = true
        · rw [if_pos h1] at h
          exact absurd h (by simp)
        · rw [if_neg h1] at h
          by_cases h2 : (List.takeWhile (fun c => !unitEnd c)
              (ParseDuration.fraction s1).2.2.1).isEmpty = true
          · rw [if_pos h2] at h
            exact absurd h (by simp)
          · rw [if_neg h2] at h
            cases hu : unitMap (List.takeWhile (fun c => !unitEnd c)
                (ParseDuration.fraction s1).2.2.1) with
            | none => simp [hu] at h
            | some unit =>
              simp only [hu] at h
              refine ⟨v, s1, unit, rfl, ?_, ?_, hu, ?_⟩
              · simp only [Bool.and_eq_true, Bool.not_eq_true', decide_eq_false_iff_not, ne_eq,
                  not_and, Bool.not_eq_false, not_not] at h1
                by_cases hl : (c :: cs).length = s1.length
                · exact Or.inr (h1 hl)
                · exact Or.inl hl
              · intro hnil
                rw [hnil] at h2
                simp at h2
              · split_ifs at h <;>
                  (simp only [Option.some.injEq, Prod.mk.injEq] at h; exact h.1.symm)

theorem ParseDuration.round_sound (ff : FloatFrac) (s s4 : List Char) (d d1 : Nat)
    (h : ParseDuration.round ff s d = some (s4, d1)) :
    ∃ comp, Component comp ∧ comp ≠ [] ∧ s = comp ++ s4 := by
  obtain ⟨v, s1, unit, hli, hpp, hne, hu, hs4⟩ := ParseDuration.round_parts ff s s4 d d1 h
  obtain ⟨ds, e1, e2, -⟩ := leadingInt_some _ _ _ _ hli
  obtain ⟨dot, fs, f1, f2, f3, f4⟩ := ParseDuration.fraction_spec s1
  have hsplit := List.takeWhile_append_dropWhile (fun c => !unitEnd c)
    (ParseDuration.fraction s1).2.2.1
  rw [← hs4] at hsplit
  have hsome : ds ≠ [] ∨ fs ≠ [] := by
    by_cases hds : ds = []
    · right
      rcases hpp with hpp | hpp
      · rw [hds, List.nil_append] at e1
        rw [e1] at hpp
        exact absurd rfl hpp
      · exact f4 hpp
    · exact Or.inl hds
  refine ⟨ds ++ ((if dot then '.' :: fs else []) ++
    List.takeWhile (fun c => !unitEnd c) (ParseDuration.fraction s1).2.2.1),
    Component.mk ds fs _ dot unit e2 f2 f3 hsome hu, ?_, ?_⟩
  · intro hnil
    simp only [List.append_eq_nil] at hnil
    exact hne hnil.2.2
  · rw [List.append_assoc, List.append_assoc, hsplit, ← f1]
    exact e1

theorem ParseDuration.loop_sound (ff : FloatFrac) :
    ∀ (fuel : Nat) (s : List Char) (d r : Nat),
      ParseDuration.loop ff fuel s d = LoopResult.total r → s = [] ∨ Components s := by
  intro fuel
  induction fuel with
  | zero =>
    intro s d r h
    cases s with
    | nil => exact Or.inl rfl
    | cons c cs => exact absurd h (by simp [ParseDuration.loop])
  | succ f ih =>
    intro s d r h
    cases s with
    | nil => exact Or.inl rfl
    | cons c cs =>
      rw [ParseDuration.loop_succ] at h
      cases hr : ParseDuration.round ff (c :: cs) d with
      | none => simp [hr] at h
      | some p =>
        obtain ⟨s4, d1⟩ := p
        simp only [hr] at h
        obtain ⟨comp, hc, -, hs⟩ := ParseDuration.round_sound ff _ _ _ _ hr
        right
        rw [hs]
        rcases ih s4 d1 r h with h4 | h4
        · rw [h4, List.append_nil]
          exact Components.one comp hc
        · exact Components.cons comp s4 hc h4

/-- The bound on the number of rounds is never reached: each round consumes
at least one character. -/
theorem ParseDuration.loop_fuel (ff : FloatFrac) :
    ∀ (fuel : Nat) (s : List Char) (d : Nat), s.length ≤ fuel →
      ParseDuration.loop ff fuel s d ≠ LoopResult.exhausted := by
  intro fuel
  induction fuel with
  | zero =>
    intro s d hl
    cases s with
    | nil => simp [ParseDuration.loop]
    | cons c cs => simp at hl
  | succ f ih =>
    intro s d hl
    cases s with
    | nil => simp [ParseDuration.loop]
    | cons c cs =>
      rw [ParseDuration.loop_succ]
      cases hr : ParseDuration.round ff (c :: cs) d with
      | none => simp
      | some p =>
        obtain ⟨s4, d1⟩ := p
        obtain ⟨comp, -, hne, hs⟩ := ParseDuration.round_sound ff _ _ _ _ hr
        apply ih
        have hlen := congrArg List.length hs
        have hpos : 0 < comp.length := List.length_pos.mpr hne
        simp only [List.length_cons, List.length_append] at hlen hl
        omega

theorem ParseDuration_sound (ff : FloatFrac) (t : List Char) (d : Int)
    (h : ParseDuration ff t = some d) : WellFormedDuration t := by
  unfold ParseDuration at h
  simp only at h
  have key : ∀ body : List Char, (t = body ∨ t = '+' :: body ∨ t = '-' :: body) →
      (if body = ['0'] then some (0 : Int)
        else if body = [] then none
        else
          match ParseDuration.loop ff body.length body 0 with
          | .total r =>
            if decide (t.head? = some '-') = true then some (-(r : Int))
            else if r > 2 ^ 63 - 1 then none
            else some (r : Int)
          | .invalid => none
          | .exhausted => none) = some d → WellFormedDuration t := by
    intro body hb hres
    refine ⟨body, hb, ?_⟩
    by_cases h0 : body = ['0']
    · exact Or.inl h0
    · right
      rw [if_neg h0] at hres
      by_cases hn : body = []
      · simp [hn] at hres
      · rw [if_neg hn] at hres
        cases hl : ParseDuration.loop ff body.length body 0 with
        | total r =>
          rcases ParseDuration.loop_sound ff _ _ _ _ hl with h1 | h1
          · exact absurd h1 hn
          · exact h1
        | invalid => simp [hl] at hres
        | exhausted => simp [hl] at hres
  cases t with
  | nil => simp at h
  | cons c cs =>
    by_cases hs : c = '-' ∨ c = '+'
    · apply key cs
      · rcases hs with hs | hs
        · exact Or.inr (Or.inr (by rw [hs]))
        · exact Or.inr (Or.inl (by rw [hs]))
      · simpa only [hs, if_true] using h
    · apply key (c :: cs) (Or.inl rfl)
      simpa only [hs, if_false] using h

theorem parseDuration_sound (ff : FloatFrac) (s : List Char) (d : Int)
    (h : parseDuration ff s = some d) :
    isInteger (TrimSpace s) = true ∨ WellFormedDuration (TrimSpace s) := by
  unfold parseDuration at h
  simp only at h
  split_ifs at h with h0
  cases ha : Atoi (TrimSpace s) with
  | some n => exact Or.inl (Atoi_sound _ n ha).1
  | none =>
    simp only [ha] at h
    exact Or.inr (ParseDuration_sound ff _ d h)

theorem TrimSpace_blank (s : List Char) (h : s.all IsSpace = true) : TrimSpace s = [] := by
  have : s.dropWhile IsSpace = [] := by
    rw [List.dropWhile_eq_nil_iff]
    exact List.all_eq_true.mp h
  unfold TrimSpace
  rw [this]
  rfl

theorem Component_head (comp : List Char) (h : Component comp) :
    ∃ c, comp.head? = some c ∧ (c = '.' ∨ isDigit c = true) := by
  cases h with
  | mk int frac u dot unit hint hfrac hdot hsome hunit =>
    cases int with
    | cons c cs =>
      simp only [List.all_cons, Bool.and_eq_true] at hint
      exact ⟨c, by simp, Or.inr hint.1⟩
    | nil =>
      have hf : frac ≠ [] := by
        rcases hsome with h1 | h1
        · exact absurd rfl h1
        · exact h1
      have hd : dot = true := by
        cases dot with
        | true => rfl
        | false => exact absurd (hdot rfl) hf
      subst hd
      exact ⟨'.', by simp, Or.inl rfl⟩

theorem Components_head (body : List Char) (h : Components body) :
    ∃ c, body.head? = some c ∧ (c = '.' ∨ isDigit c = true) := by
  cases h with
  | one c h => exact Component_head _ h
  | cons comp rest h hrest =>
    obtain ⟨c, e1, e2⟩ := Component_head _ h
    refine ⟨c, ?_, e2⟩
    cases comp with
    | nil => simp at e1
    | cons x xs => simpa using e1

/-- A well-formed duration starts with a sign, a digit or a point. -/
theorem WellFormedDuration_head (t : List Char) (h : WellFormedDuration t) :
    ∃ c, t.head? = some c ∧ (c = '+' ∨ c = '-' ∨ c = '.' ∨ isDigit c = true) := by
  obtain ⟨body, hb, hbody⟩ := h
  rcases hb with hb | hb | hb
  · subst hb
    rcases hbody with h0 | h0
    · subst h0
      exact ⟨'0', rfl, Or.inr (Or.inr (Or.inr (by decide)))⟩
    · obtain ⟨c, e1, e2⟩ := Components_head _ h0
      exact ⟨c, e1, Or.inr (Or.inr e2)⟩
  · exact ⟨'+', by rw [hb]; rfl, Or.inl rfl⟩
  · exact ⟨'-', by rw [hb]; rfl, Or.inr (Or.inl rfl)⟩

/-- C6: `parseDuration` returns an error for every text that is empty or
consists only of white space, and for every text whose trimmed form is neither
a decimal integer nor a well-formed unit-suffixed duration; it returns no span
for such text. -/
theorem parseDuration_rejects (ff : FloatFrac) (s : List Char)
    (h : s.all IsSpace = true ∨
      (isInteger (TrimSpace s) = false ∧ ¬ WellFormedDuration (TrimSpace s))) :
    parseDuration ff s = none := by
  rcases h with h | ⟨h1, h2⟩
  · unfold parseDuration
    simp [TrimSpace_blank s h]
  · cases hp : parseDuration ff s with
    | none => rfl
    | some d =>
      rcases parseDuration_sound ff s d hp with h3 | h3
      · rw [h1] at h3
        exact absurd h3 (by simp)
      · exact absurd h3 h2

/-- Witness of C6: `abc` is neither an integer nor a well-formed duration and
is rejected; so are the empty text, blank text, `5x` and `m`. -/
theorem parseDuration_rejects_witness :
    (isInteger (TrimSpace "abc".toList) = false ∧ ¬ WellFormedDuration (TrimSpace "abc".toList)) ∧
    parseDuration exactFrac "abc".toList = none ∧
    ("  ".toList.all IsSpace = true ∧ parseDuration exactFrac "  ".toList = none) ∧
    parseDuration exactFrac "".toList = none ∧
    parseDuration exactFrac "5x".toList = none ∧
    parseDuration exactFrac "m".toList = none := by
  have hw : ¬ WellFormedDuration (TrimSpace "abc".toList) := by
    intro hwf
    obtain ⟨c, e1, e2⟩ := WellFormedDuration_head _ hwf
    have hc : c = 'a' := by
      have : (TrimSpace "abc".toList).head? = some 'a' := by decide
      rw [this] at e1
      simp only [Option.some.injEq] at e1
      exact e1.symm
    subst hc
    revert e2
    decide
  exact ⟨⟨by decide, hw⟩,
    parseDuration_rejects exactFrac "abc".toList (Or.inr ⟨by decide, hw⟩),
    ⟨by decide, parseDuration_rejects exactFrac "  ".toList (Or.inl (by decide))⟩,
    by decide, by decide, by decide⟩

/-! ## Submitting the form: defaults, failure, and the success condition -/

theorem parseDuration_default_timer (ff : FloatFrac) :
    parseDuration ff ['2', '5', 'm'] = some (25 * Minute) := by
  have h := parseDuration_one_unit ff ['2', '5'] 'm' 60000000000 ⟨by decide, by decide⟩
    ⟨by decide, by decide, by decide⟩ (by norm_num) (by decide)
  have e : decimalValue ['2', '5'] = 25 := by decide
  rw [e] at h
  exact h

theorem parseDuration_default_break (ff : FloatFrac) :
    parseDuration ff ['5', 'm'] = some (5 * Minute) := by
  have h := parseDuration_one_unit ff ['5'] 'm' 60000000000 ⟨by decide, by decide⟩
    ⟨by decide, by decide, by decide⟩ (by norm_num) (by decide)
  have e : decimalValue ['5'] = 5 := by decide
  rw [e] at h
  exact h

theorem Atoi_default_sessions : Atoi ['4'] = some 4 := by decide

theorem validateAndSetValues_ok (ff : FloatFrac) (m : model) (timer breakDur sessions : Int)
    (h1 : parseDuration ff (orDefault m.timerInput.value ['2', '5', 'm']) = some timer)
    (h2 : parseDuration ff (orDefault m.breakInput.value ['5', 'm']) = some breakDur)
    (h3 : Atoi (orDefault m.sessionInput.value ['4']) = some sessions) (h4 : 0 < sessions) :
    validateAndSetValues ff m =
      (true, { m with timerDuration := timer, breakDuration := breakDur, sessions := sessions,
                      currentSession := 0 }) := by
  have h5 : ¬ sessions ≤ 0 := by omega
  unfold validateAndSetValues
  simp only [h1, h2, h3, h5, if_false]

/-- C7: in the Input phase, Enter with every field either empty or valid
succeeds: each empty field takes its default (25 minutes, 5 minutes, 4
sessions) and every other field its parsed value; `currentSession` is 0 and the
Work phase is entered, armed with `totalTime = remaining = timerDuration`, not
paused, `pausedTime = 0`, started at the current clock reading, and a tick is
scheduled.  With all three fields empty the plan is 25 minutes, 5 minutes and
4 sessions. -/
theorem submit_defaults (env : Env) (now : Int) (m : model) (timer breakDur sessions : Int)
    (hs : m.state = StateInput)
    (ht : m.timerInput.value ≠ [] → parseDuration env.ff m.timerInput.value = some timer)
    (hb : m.breakInput.value ≠ [] → parseDuration env.ff m.breakInput.value = some breakDur)
    (hn : m.sessionInput.value ≠ [] →
      Atoi m.sessionInput.value = some sessions ∧ 0 < sessions) :
    let r := Update env now m (.KeyMsg "enter")
    r.cmd = Cmd.tick ∧ r.notes = [] ∧ r.m.state = StateTimer ∧
    r.m.timerDuration = (if m.timerInput.value = [] then 25 * Minute else timer) ∧
    r.m.breakDuration = (if m.breakInput.value = [] then 5 * Minute else breakDur) ∧
    r.m.sessions = (if m.sessionInput.value = [] then 4 else sessions) ∧
    r.m.currentSession = 0 ∧ r.m.totalTime = r.m.timerDuration ∧
    r.m.remaining = r.m.timerDuration ∧ r.m.isPaused = false ∧ r.m.pausedTime = 0 ∧
    r.m.isBreak = false ∧ r.m.startTime = now := by
  intro r
  have h1 : parseDuration env.ff (orDefault m.timerInput.value ['2', '5', 'm']) =
      some (if m.timerInput.value = [] then 25 * Minute else timer) := by
    unfold orDefault
    by_cases h : m.timerInput.value = []
    · simp only [h, if_true]
      exact parseDuration_default_timer env.ff
    · simp only [h, if_false]
      exact ht h
  have h2 : parseDuration env.ff (orDefault m.breakInput.value ['5', 'm']) =
      some (if m.breakInput.value = [] then 5 * Minute else breakDur) := by
    unfold orDefault
    by_cases h : m.breakInput.value = []
    · simp only [h, if_true]
      exact parseDuration_default_break env.ff
    · simp only [h, if_false]
      exact hb h
  have h3 : Atoi (orDefault m.sessionInput.value ['4']) =
      some (if m.sessionInput.value = [] then 4 else sessions) ∧
      0 < (if m.sessionInput.value = [] then 4 else sessions) := by
    unfold orDefault
    by_cases h : m.sessionInput.value = []
    · simp only [h, if_true]
      exact ⟨Atoi_default_sessions, by norm_num⟩
    · simp only [h, if_false]
      exact hn h
  have hv := validateAndSetValues_ok env.ff m _ _ _ h1 h2 h3.1 h3.2
  have hr : r = { m := startTimer now { (validateAndSetValues env.ff m).2 with state := StateTimer },
                  cmd := Cmd.tick, notes := [] } := by
    show Update env now m (.KeyMsg "enter") = _
    rw [Update_enter env now m hs, hv]
    simp
  rw [hr, hv]
  exact ⟨rfl, rfl, rfl, rfl, rfl, rfl, rfl, rfl, rfl, rfl, rfl, rfl, rfl⟩

/-- Witness of C7: Enter on the empty form at clock reading 7. -/
theorem submit_defaults_witness :
    (initialModel.state = StateInput ∧ initialModel.timerInput.value = [] ∧
      initialModel.breakInput.value = [] ∧ initialModel.sessionInput.value = []) ∧
    (Update idleEnv 7 initialModel (.KeyMsg "enter")).m.state = StateTimer ∧
    (Update idleEnv 7 initialModel (.KeyMsg "enter")).m.timerDuration = 25 * Minute ∧
    (Update idleEnv 7 initialModel (.KeyMsg "enter")).m.breakDuration = 5 * Minute ∧
    (Update idleEnv 7 initialModel (.KeyMsg "enter")).m.sessions = 4 ∧
    (Update idleEnv 7 initialModel (.KeyMsg "enter")).m.currentSession = 0 ∧
    (Update idleEnv 7 initialModel (.KeyMsg "enter")).m.totalTime = 25 * Minute := by
  have h := submit_defaults idleEnv 7 initialModel 0 0 0 rfl
    (fun h => absurd rfl h) (fun h => absurd rfl h) (fun h => absurd rfl h)
  dsimp only at h
  obtain ⟨-, -, a3, a4, a5, a6, a7, a8, -⟩ := h
  refine ⟨⟨rfl, rfl, rfl, rfl⟩, a3, a4, a5, a6, a7, ?_⟩
  rw [a8, a4]
  rfl

/-- C8: when submit fails (`validateAndSetValues` returns false) the model is
left as it was: `validateAndSetValues` changes no field, and after `Update` the
phase is still Input and the plan, `currentSession` and all timer bookkeeping
fields are unchanged (only the text field that has the focus handles the key);
no notification is sent. -/
theorem submit_failure_keeps_state (env : Env) (now : Int) (m : model)
    (hs : m.state = StateInput) (hf : (validateAndSetValues env.ff m).1 = false) :
    let r := Update env now m (.KeyMsg "enter")
    (validateAndSetValues env.ff m).2 = m ∧ r.notes = [] ∧ r.m.state = StateInput ∧
    r.m.timerDuration = m.timerDuration ∧ r.m.breakDuration = m.breakDuration ∧
    r.m.sessions = m.sessions ∧ r.m.currentSession = m.currentSession ∧
    r.m.startTime = m.startTime ∧ r.m.totalTime = m.totalTime ∧
    r.m.remaining = m.remaining ∧ r.m.isBreak = m.isBreak ∧ r.m.isPaused = m.isPaused ∧
    r.m.pausedTime = m.pausedTime ∧ r.m.lastPauseTime = m.lastPauseTime ∧
    r.m.activeInput = m.activeInput := by
  intro r
  have hv := validateAndSetValues_false env.ff m hf
  have hr : r = updateActiveInput env m (.KeyMsg "enter") := by
    show Update env now m (.KeyMsg "enter") = _
    rw [Update_enter env now m hs, hv]
    simp [hf]
  rw [hr]
  refine ⟨hv, ?_⟩
  unfold updateActiveInput
  split_ifs <;> simp [hs]

/-- Witness of C8: `submit ("abc", "5m", "4")` fails and the phase remains
Input; so does a form whose durations are valid and whose sessions are `0`. -/
theorem submit_failure_keeps_state_witness :
    ((form "abc" "5m" "4").state = StateInput ∧
      (validateAndSetValues idleEnv.ff (form "abc" "5m" "4")).1 = false) ∧
    (Update idleEnv 7 (form "abc" "5m" "4") (.KeyMsg "enter")).m.state = StateInput ∧
    (Update idleEnv 7 (form "abc" "5m" "4") (.KeyMsg "enter")).m.breakDuration = 0 ∧
    (validateAndSetValues idleEnv.ff (form "25m" "5m" "0")).1 = false ∧
    (Update idleEnv 7 (form "25m" "5m" "0") (.KeyMsg "enter")).m = form "25m" "5m" "0" := by
  have h := submit_failure_keeps_state idleEnv 7 (form "abc" "5m" "4") rfl (by decide)
  dsimp only at h
  exact ⟨⟨rfl, by decide⟩, h.2.2.1, h.2.2.2.2.1, by decide, by decide⟩

theorem intValue_range_of_short (t : List Char) (hi : isInteger t = true)
    (hl : t.length ≤ 18) : -2 ^ 63 ≤ intValue t ∧ intValue t < 2 ^ 63 := by
  cases t with
  | nil => simp [isInteger] at hi
  | cons c cs =>
    by_cases hs : c = '+' ∨ c = '-'
    · simp only [isInteger, hs, if_true, Bool.and_eq_true] at hi
      have hb := decimalValue_lt_of_short cs hi.2 (by simp only [List.length_cons] at hl; omega)
      rcases hs with hs | hs
      · subst hs
        have : intValue ('+' :: cs) = (decimalValue cs : Int) := by simp [intValue]
        rw [this]
        omega
      · subst hs
        have : intValue ('-' :: cs) = -(decimalValue cs : Int) := by simp [intValue]
        rw [this]
        omega
    · rw [isInteger_plain c cs hs] at hi
      have hc : isDigit c = true := by
        simp only [List.all_cons, Bool.and_eq_true] at hi
        exact hi.1
      have hb := decimalValue_lt_of_short (c :: cs) hi hl
      rw [intValue_plain c cs hc]
      omega

/-- C9: submit succeeds if and only if, after substituting the defaults for
empty fields, the work text parses as a duration, the break text parses as a
duration, and the sessions text is a decimal integer strictly greater than
zero.  The sessions field holds at most two characters (`CharLimit`); any
sessions text of at most 18 characters will do. -/
theorem submit_succeeds_iff (ff : FloatFrac) (m : model)
    (hlen : m.sessionInput.value.length ≤ 18) :
    (validateAndSetValues ff m).1 = true ↔
      (parseDuration ff (orDefault m.timerInput.value ['2', '5', 'm'])).isSome = true ∧
      (parseDuration ff (orDefault m.breakInput.value ['5', 'm'])).isSome = true ∧
      isInteger (orDefault m.sessionInput.value ['4']) = true ∧
      0 < intValue (orDefault m.sessionInput.value ['4']) := by
  have hl : (orDefault m.sessionInput.value ['4']).length ≤ 18 := by
    unfold orDefault
    split_ifs
    · simp
    · exact hlen
  constructor
  · intro h
    obtain ⟨timer, breakDur, sessions, h1, h2, h3, h4, -⟩ := validateAndSetValues_true ff m h
    obtain ⟨a1, a2, -, -⟩ := Atoi_sound _ _ h3
    refine ⟨by rw [h1]; rfl, by rw [h2]; rfl, a1, by rw [a2]; exact h4⟩
  · rintro ⟨h1, h2, h3, h4⟩
    obtain ⟨timer, ht⟩ := Option.isSome_iff_exists.mp h1
    obtain ⟨breakDur, hb⟩ := Option.isSome_iff_exists.mp h2
    obtain ⟨r1, r2⟩ := intValue_range_of_short _ h3 hl
    have ha := Atoi_complete _ h3 r1 r2
    rw [validateAndSetValues_ok ff m _ _ _ ht hb ha h4]

/-- Witness of C9: the empty form is accepted, and with valid durations the
sessions texts `0`, `-1` and `x` are each rejected. -/
theorem submit_succeeds_iff_witness :
    (form "" "" "").sessionInput.value.length ≤ 18 ∧
    (validateAndSetValues exactFrac (form "" "" "")).1 = true ∧
    (validateAndSetValues exactFrac (form "25m" "5m" "0")).1 = false ∧
    (validateAndSetValues exactFrac (form "25m" "5m" "-1")).1 = false ∧
    (validateAndSetValues exactFrac (form "25m" "5m" "x")).1 = false ∧
    ¬ (0 < intValue (orDefault (form "25m" "5m" "0").sessionInput.value ['4'])) ∧
    ¬ (0 < intValue (orDefault (form "25m" "5m" "-1").sessionInput.value ['4'])) ∧
    isInteger (orDefault (form "25m" "5m" "x").sessionInput.value ['4']) = false :=
  ⟨by decide,
    (submit_succeeds_iff exactFrac (form "" "" "") (by decide)).mpr
      ⟨by decide, by decide, by decide, by decide⟩,
    by decide, by decide, by decide, by decide, by decide, by decide⟩

/-! ## The effect of one event -/

theorem sendNotification_remaining (m : model) (x : Int) :
    sendNotification { m with remaining := x } = sendNotification m := rfl

theorem updateTick_notes (now : Int) (m : model) :
    (updateTick now m).notes =
      if remainingAt now m ≤ 0 then [sendNotification m] else [] := by
  unfold updateTick
  simp only
  by_cases h : remainingAt now m ≤ 0
  · rw [if_pos h, if_pos h]
    by_cases hb : m.isBreak = true
    · rw [if_pos hb]
      by_cases hge : m.currentSession + 1 ≥ m.sessions
      · rw [if_pos hge]
        rfl
      · rw [if_neg hge]
        rfl
    · rw [if_neg hb]
      rfl
  · rw [if_neg h, if_neg h]

theorem updateActiveInput_frame (env : Env) (m : model) (msg : Msg) :
    Frame m (updateActiveInput env m msg) := by
  unfold updateActiveInput Frame
  split_ifs <;> simp

theorem updateInput_cases (env : Env) (now : Int) (m : model) (key : String)
    (hs : m.state = StateInput) :
    Frame m (updateInput env now m key) ∨
      Submitted env m (.KeyMsg key) (updateInput env now m key) := by
  unfold updateInput
  simp only
  by_cases h1 : key = "ctrl+c" ∨ key = "q"
  · rw [if_pos h1]
    exact Or.inl ⟨rfl, rfl, rfl, rfl, rfl, rfl, rfl, rfl⟩
  · rw [if_neg h1]
    by_cases h2 : key = "tab" ∨ key = "down"
    · rw [if_pos h2]
      exact Or.inl (updateActiveInput_frame env _ _)
    · rw [if_neg h2]
      by_cases h3 : key = "shift+tab" ∨ key = "up"
      · rw [if_pos h3]
        exact Or.inl (updateActiveInput_frame env _ _)
      · rw [if_neg h3]
        by_cases h4 : key = "enter"
        · rw [if_pos h4]
          by_cases hv : (validateAndSetValues env.ff m).1 = true
          · rw [if_pos hv]
            obtain ⟨timer, breakDur, sessions, -, -, -, hpos, he⟩ :=
              validateAndSetValues_true env.ff m hv
            right
            rw [he]
            exact ⟨hs, by rw [h4], hv, rfl, rfl, rfl, rfl, hpos, rfl⟩
          · rw [if_neg hv]
            have hf : (validateAndSetValues env.ff m).1 = false := by
              simpa using hv
            rw [validateAndSetValues_false env.ff m hf]
            exact Or.inl (updateActiveInput_frame env _ _)
        · rw [if_neg h4]
          exact Or.inl (updateActiveInput_frame env _ _)

theorem updateTimer_frame (now : Int) (m : model) (key : String) :
    Frame m (updateTimer now m key) := by
  unfold updateTimer Frame
  split_ifs <;> simp

theorem updateTick_cases (now : Int) (m : model) (t : Int) (hc : Coherent m)
    (hs : m.state = StateTimer ∨ m.state = StateBreak) (hp : m.isPaused = false) :
    Frame m (updateTick now m) ∨ WorkElapsed now m (.tickMsg t) (updateTick now m) ∨
      BreakElapsed now m (.tickMsg t) (updateTick now m) := by
  have hn := updateTick_notes now m
  by_cases hrem : remainingAt now m ≤ 0
  · rw [if_pos hrem] at hn
    rcases hs with hs | hs
    · have hb := hc.1 hs
      have hm := updateTick_work_m now m hrem hb
      right; left
      refine ⟨hs, ⟨t, rfl⟩, hp, hrem, ?_, ?_, ?_, ?_, ?_, ?_, ?_, hn⟩ <;> rw [hm] <;> rfl
    · have hb := hc.2 hs
      right; right
      by_cases hge : m.currentSession + 1 ≥ m.sessions
      · have hm := updateTick_last_m now m hrem hb hge
        refine ⟨hs, ⟨t, rfl⟩, hp, hrem, ?_, ?_, ?_, ?_, hn, Or.inl ⟨hge, ?_⟩⟩ <;>
          rw [hm]
      · have hm := updateTick_next_m now m hrem hb hge
        refine ⟨hs, ⟨t, rfl⟩, hp, hrem, ?_, ?_, ?_, ?_, hn,
          Or.inr ⟨by omega, ?_, ?_, ?_⟩⟩ <;> rw [hm] <;> rfl
  · rw [if_neg hrem] at hn
    have hm := updateTick_running_m now m hrem
    left
    refine ⟨?_, ?_, ?_, ?_, ?_, ?_, ?_, hn⟩ <;> rw [hm]

/-- Every event handled in a state whose break flag agrees with its phase is
of one of four kinds: it leaves phase, session index, plan and arming alone;
or it is a valid submit; or a tick on which work elapses; or a tick on which
the break elapses. -/
theorem Update_cases (env : Env) (now : Int) (m : model) (msg : Msg) (hc : Coherent m) :
    Frame m (Update env now m msg) ∨ Submitted env m msg (Update env now m msg) ∨
      WorkElapsed now m msg (Update env now m msg) ∨
      BreakElapsed now m msg (Update env now m msg) := by
  cases msg with
  | KeyMsg key =>
    cases hst : m.state with
    | StateInput =>
      have hU : Update env now m (.KeyMsg key) = updateInput env now m key := by
        unfold Update
        simp only [hst]
      rw [hU]
      rcases updateInput_cases env now m key hst with h | h
      · exact Or.inl h
      · exact Or.inr (Or.inl h)
    | StateTimer =>
      have hU : Update env now m (.KeyMsg key) = updateTimer now m key := by
        unfold Update
        simp only [hst]
      rw [hU]
      exact Or.inl (updateTimer_frame now m key)
    | StateBreak =>
      have hU : Update env now m (.KeyMsg key) = updateTimer now m key := by
        unfold Update
        simp only [hst]
      rw [hU]
      exact Or.inl (updateTimer_frame now m key)
    | StateComplete =>
      left
      unfold Update
      simp only [hst]
      split_ifs <;> exact ⟨rfl, rfl, rfl, rfl, rfl, rfl, rfl, rfl⟩
  | WindowSizeMsg w hgt =>
    exact Or.inl ⟨rfl, rfl, rfl, rfl, rfl, rfl, rfl, rfl⟩
  | tickMsg t =>
    by_cases hcond : (m.state = StateTimer ∨ m.state = StateBreak) ∧ m.isPaused = false
    · rw [Update_tick_eq env now t m hcond.1 hcond.2]
      rcases updateTick_cases now m t hc hcond.1 hcond.2 with h | h | h
      · exact Or.inl h
      · exact Or.inr (Or.inr (Or.inl h))
      · exact Or.inr (Or.inr (Or.inr h))
    · left
      have hU : Update env now m (.tickMsg t) = { m := m, cmd := Cmd.nil, notes := [] } := by
        unfold Update
        simp only [hcond, if_false]
      rw [hU]
      exact ⟨rfl, rfl, rfl, rfl, rfl, rfl, rfl, rfl⟩
  | other =>
    exact Or.inl ⟨rfl, rfl, rfl, rfl, rfl, rfl, rfl, rfl⟩

/-! ## The session index and the phase under any event -/

/-- C11: for every reachable state in Work, Break or Complete phase and every
event (any key, a tick at any clock reading, a resize, any other message),
`currentSession` after the event equals its value before or is exactly one
greater; it never decreases; and it is one greater only when the event is a
tick on which a Break phase elapses (the transitions Break to Work and Break to
Complete). -/
theorem currentSession_steps (env : Env) (now : Int) (m : model) (msg : Msg)
    (hr : Reachable env m) (hs : m.state ≠ StateInput) :
    let r := Update env now m msg
    (r.m.currentSession = m.currentSession ∨ r.m.currentSession = m.currentSession + 1) ∧
    r.m.currentSession ≥ m.currentSession ∧
    (r.m.currentSession = m.currentSession + 1 →
      (∃ t, msg = Msg.tickMsg t) ∧ m.state = StateBreak ∧ m.isPaused = false ∧
      remainingAt now m ≤ 0 ∧ (r.m.state = StateTimer ∨ r.m.state = StateComplete)) := by
  intro r
  rcases Update_cases env now m msg hr.coherent with h | h | h | h
  · obtain ⟨-, h2, -⟩ := h
    exact ⟨Or.inl h2, le_of_eq h2.symm, fun hinc => by
      have : r.m.currentSession = m.currentSession := h2
      omega⟩
  · exact absurd h.1 hs
  · obtain ⟨-, -, -, -, -, h2, -⟩ := h
    exact ⟨Or.inl h2, le_of_eq h2.symm, fun hinc => by
      have : r.m.currentSession = m.currentSession := h2
      omega⟩
  · obtain ⟨h1, h2, h3, h4, h5, -, -, -, -, h6⟩ := h
    have h5' : r.m.currentSession = m.currentSession + 1 := h5
    refine ⟨Or.inr h5, by omega, fun _ => ⟨h2, h1, h3, h4, ?_⟩⟩
    rcases h6 with h6 | h6
    · exact Or.inr h6.2
    · exact Or.inl h6.2.1

/-- Witness of C11: the Break state of `pomo -t 1m -b 1m -s 2` at the tick
after two minutes: the session index goes from 0 to 1. -/
theorem currentSession_steps_witness :
    (Reachable idleEnv flagBreak ∧ flagBreak.state ≠ StateInput) ∧
    flagBreak.currentSession = 0 ∧
    (Update idleEnv (120 * Second) flagBreak (.tickMsg 0)).m.currentSession = 1 ∧
    (Update idleEnv (120 * Second) flagBreak (.tickMsg 0)).m.currentSession
      ≥ flagBreak.currentSession := by
  have hw : Reachable idleEnv flagWork :=
    Reachable.start 0 ['1', 'm'] ['1', 'm'] 2 _ (by decide)
  have hb : Reachable idleEnv flagBreak := Reachable.step _ _ _ hw
  have h := currentSession_steps idleEnv (120 * Second) flagBreak (.tickMsg 0) hb (by decide)
  exact ⟨⟨hb, by decide⟩, by decide, by decide, h.2.1⟩

/-- C12: for every reachable state and every event, the phase after `Update`
is the phase before, or the pair is Input to Work (only on Enter with a valid
submission), Work to Break (only on a tick on which work elapses), Break to
Work or Break to Complete (only on a tick on which the break elapses).  In
particular no event changes the phase of a Complete state and no event leads
back to Input. -/
theorem phase_transitions (env : Env) (now : Int) (m : model) (msg : Msg)
    (hr : Reachable env m) :
    let r := Update env now m msg
    (r.m.state = m.state ∨
      (m.state = StateInput ∧ r.m.state = StateTimer ∧ msg = Msg.KeyMsg "enter" ∧
        (validateAndSetValues env.ff m).1 = true) ∨
      (m.state = StateTimer ∧ r.m.state = StateBreak ∧ (∃ t, msg = Msg.tickMsg t) ∧
        m.isPaused = false ∧ remainingAt now m ≤ 0) ∨
      (m.state = StateBreak ∧ (r.m.state = StateTimer ∨ r.m.state = StateComplete) ∧
        (∃ t, msg = Msg.tickMsg t) ∧ m.isPaused = false ∧ remainingAt now m ≤ 0)) ∧
    (m.state = StateComplete → r.m.state = StateComplete) ∧
    (r.m.state = StateInput → m.state = StateInput) := by
  intro r
  rcases Update_cases env now m msg hr.coherent with h | h | h | h
  · have h1 : r.m.state = m.state := h.1
    exact ⟨Or.inl h1, fun hc => h1.trans hc, fun hi => h1.symm.trans hi⟩
  · obtain ⟨h1, h2, h3, h4, -⟩ := h
    have h4' : r.m.state = StateTimer := h4
    refine ⟨Or.inr (Or.inl ⟨h1, h4, h2, h3⟩), fun hc => ?_, fun _ => h1⟩
    rw [h1] at hc
    exact absurd hc (by decide)
  · obtain ⟨h1, h2, h3, h4, h5, -⟩ := h
    have h5' : r.m.state = StateBreak := h5
    refine ⟨Or.inr (Or.inr (Or.inl ⟨h1, h5, h2, h3, h4⟩)), fun hc => ?_, fun hi => ?_⟩
    · rw [h1] at hc
      exact absurd hc (by decide)
    · rw [h5'] at hi
      exact absurd hi (by decide)
  · obtain ⟨h1, h2, h3, h4, -, -, -, -, -, h6⟩ := h
    have h7 : r.m.state = StateTimer ∨ r.m.state = StateComplete := by
      rcases h6 with h6 | h6
      · exact Or.inr h6.2
      · exact Or.inl h6.2.1
    refine ⟨Or.inr (Or.inr (Or.inr ⟨h1, h7, h2, h3, h4⟩)), fun hc => ?_, fun hi => ?_⟩
    · rw [h1] at hc
      exact absurd hc (by decide)
    · rcases h7 with h7 | h7 <;> rw [h7] at hi <;> exact absurd hi (by decide)

/-- Witness of C12: the start state of `pomo -t 1m -b 1m -s 2` goes from Work
to Break at the tick after one minute. -/
theorem phase_transitions_witness :
    Reachable idleEnv flagWork ∧ flagWork.state = StateTimer ∧
    (Update idleEnv (60 * Second) flagWork (.tickMsg 0)).m.state = StateBreak ∧
    (flagWork.isPaused = false ∧ remainingAt (60 * Second) flagWork ≤ 0) := by
  have hw : Reachable idleEnv flagWork :=
    Reachable.start 0 ['1', 'm'] ['1', 'm'] 2 _ (by decide)
  have h := (phase_transitions idleEnv (60 * Second) flagWork (.tickMsg 0) hw).1
  have hne : ¬ (Update idleEnv (60 * Second) flagWork (.tickMsg 0)).m.state = flagWork.state := by
    decide
  rcases h with h | h | h | h
  · exact absurd h hne
  · exact absurd h.1 (by decide)
  · exact ⟨hw, h.1, h.2.1, h.2.2.2⟩
  · exact absurd h.1 (by decide)

/-! ## The plan is fixed once the phase has left Input -/

theorem updateTick_plan (now : Int) (m : model) :
    (updateTick now m).m.timerDuration = m.timerDuration ∧
    (updateTick now m).m.breakDuration = m.breakDuration ∧
    (updateTick now m).m.sessions = m.sessions := by
  by_cases hrem : remainingAt now m ≤ 0
  · by_cases hb : m.isBreak = true
    · by_cases hge : m.currentSession + 1 ≥ m.sessions
      · rw [updateTick_last_m now m hrem hb hge]
        exact ⟨rfl, rfl, rfl⟩
      · rw [updateTick_next_m now m hrem hb hge]
        exact ⟨rfl, rfl, rfl⟩
    · rw [updateTick_work_m now m hrem (by simpa using hb)]
      exact ⟨rfl, rfl, rfl⟩
  · rw [updateTick_running_m now m hrem]
    exact ⟨rfl, rfl, rfl⟩

theorem Update_plan (env : Env) (now : Int) (m : model) (msg : Msg)
    (hs : m.state ≠ StateInput) :
    (Update env now m msg).m.timerDuration = m.timerDuration ∧
    (Update env now m msg).m.breakDuration = m.breakDuration ∧
    (Update env now m msg).m.sessions = m.sessions := by
  cases msg with
  | KeyMsg key =>
    cases hst : m.state with
    | StateInput => exact absurd hst hs
    | StateTimer =>
      have hU : Update env now m (.KeyMsg key) = updateTimer now m key := by
        unfold Update
        simp only [hst]
      rw [hU]
      obtain ⟨-, -, h3, h4, h5, -⟩ := updateTimer_frame now m key
      exact ⟨h3, h4, h5⟩
    | StateBreak =>
      have hU : Update env now m (.KeyMsg key) = updateTimer now m key := by
        unfold Update
        simp only [hst]
      rw [hU]
      obtain ⟨-, -, h3, h4, h5, -⟩ := updateTimer_frame now m key
      exact ⟨h3, h4, h5⟩
    | StateComplete =>
      unfold Update
      simp only [hst]
      split_ifs <;> exact ⟨rfl, rfl, rfl⟩
  | WindowSizeMsg w hgt => exact ⟨rfl, rfl, rfl⟩
  | tickMsg t =>
    by_cases hcond : (m.state = StateTimer ∨ m.state = StateBreak) ∧ m.isPaused = false
    · rw [Update_tick_eq env now t m hcond.1 hcond.2]
      exact updateTick_plan now m
    · have hU : Update env now m (.tickMsg t) = { m := m, cmd := Cmd.nil, notes := [] } := by
        unfold Update
        simp only [hcond, if_false]
      rw [hU]
      exact ⟨rfl, rfl, rfl⟩
  | other => exact ⟨rfl, rfl, rfl⟩

/-- C13: once the phase has left Input the session plan is immutable: for every
state in Work, Break or Complete phase and every event (key, tick, resize, any
other message), `timerDuration`, `breakDuration` and `sessions` after `Update`
equal their values before. -/
theorem plan_immutable (env : Env) (now : Int) (m : model) (msg : Msg)
    (hs : m.state ≠ StateInput) :
    (Update env now m msg).m.timerDuration = m.timerDuration ∧
    (Update env now m msg).m.breakDuration = m.breakDuration ∧
    (Update env now m msg).m.sessions = m.sessions :=
  Update_plan env now m msg hs

/-- Witness of C13: the Break state of `pomo -t 1m -b 1m -s 2` keeps its plan
at the tick that ends the break. -/
theorem plan_immutable_witness :
    flagBreak.state ≠ StateInput ∧
    (Update idleEnv (120 * Second) flagBreak (.tickMsg 0)).m.timerDuration = Minute ∧
    (Update idleEnv (120 * Second) flagBreak (.tickMsg 0)).m.breakDuration = Minute ∧
    (Update idleEnv (120 * Second) flagBreak (.tickMsg 0)).m.sessions = 2 := by
  have h := plan_immutable idleEnv (120 * Second) flagBreak (.tickMsg 0) (by decide)
  exact ⟨by decide, h.1.trans (by decide), h.2.1.trans (by decide), h.2.2.trans (by decide)⟩

/-! ## The phase tag and the timer bookkeeping agree -/

theorem Armed.toCoherent {m : model} (h : Armed m) : Coherent m :=
  ⟨fun hs => (h.1 hs).1, fun hs => (h.2 hs).1⟩

theorem Update_armed (env : Env) (now : Int) (m : model) (msg : Msg) (ha : Armed m) :
    Armed (Update env now m msg).m := by
  rcases Update_cases env now m msg ha.toCoherent with h | h | h | h
  · obtain ⟨h1, -, h3, h4, -, h6, h7, -⟩ := h
    constructor
    · intro hs
      rw [h1] at hs
      rw [h7, h6, h3]
      exact ha.1 hs
    · intro hs
      rw [h1] at hs
      rw [h7, h6, h4]
      exact ha.2 hs
  · obtain ⟨-, -, -, h4, -, h6, h7, -⟩ := h
    constructor
    · intro _
      exact ⟨h6, h7⟩
    · intro hs
      rw [h4] at hs
      exact absurd hs (by decide)
  · obtain ⟨-, -, -, -, h5, -, -, -, -, h10, h11, -⟩ := h
    constructor
    · intro hs
      rw [h5] at hs
      exact absurd hs (by decide)
    · intro _
      exact ⟨h10, h11⟩
  · obtain ⟨-, -, -, -, -, -, -, -, -, h6⟩ := h
    rcases h6 with h6 | h6
    · constructor <;> (intro hs; rw [h6.2] at hs; exact absurd hs (by decide))
    · constructor
      · intro _
        exact ⟨h6.2.2.1, h6.2.2.2⟩
      · intro hs
        rw [h6.2.1] at hs
        exact absurd hs (by decide)

theorem mainModel_armed (ff : FloatFrac) (now : Int) (tf bf : List Char) (sf : Int)
    (m : model) (h : mainModel ff now tf bf sf = some m) : Armed m := by
  unfold mainModel at h
  simp only at h
  split_ifs at h
  · split at h
    · simp at h
    · split at h
      · simp at h
      · simp only [Option.some.injEq] at h
        subst h
        simp [Armed, startTimer]
  · simp only [Option.some.injEq] at h
    subst h
    simp [Armed, initialModel]

theorem Reachable.armed {env : Env} {m : model} (h : Reachable env m) : Armed m := by
  induction h with
  | start now tf bf sf m h => exact mainModel_armed env.ff now tf bf sf m h
  | step now m msg _ ih => exact Update_armed env now m msg ih

/-- C20: in every reachable state in Work or Break phase (from the form or from
the flag start, under any sequence of keys, ticks, resizes and clock readings)
the phase tag and the timer bookkeeping agree: `isBreak` is true exactly when
the phase is Break, and `totalTime` is `breakDuration` in Break phase and
`timerDuration` in Work phase; so the branch `updateTick` takes on `isBreak` is
the one of the current phase. -/
theorem phase_bookkeeping_agree (env : Env) (m : model) (hr : Reachable env m)
    (hs : m.state = StateTimer ∨ m.state = StateBreak) :
    (m.isBreak = true ↔ m.state = StateBreak) ∧
    (m.state = StateBreak → m.totalTime = m.breakDuration) ∧
    (m.state = StateTimer → m.totalTime = m.timerDuration) := by
  have ha := hr.armed
  refine ⟨⟨fun hb => ?_, fun hst => (ha.2 hst).1⟩, fun hst => (ha.2 hst).2,
    fun hst => (ha.1 hst).2⟩
  rcases hs with hs | hs
  · rw [(ha.1 hs).1] at hb
    exact absurd hb (by decide)
  · exact hs

/-- Witness of C20: the Break state of `pomo -t 1m -b 1m -s 2`. -/
theorem phase_bookkeeping_agree_witness :
    (Reachable idleEnv flagBreak ∧ flagBreak.state = StateBreak) ∧
    flagBreak.isBreak = true ∧ flagBreak.totalTime = flagBreak.breakDuration := by
  have hw : Reachable idleEnv flagWork :=
    Reachable.start 0 ['1', 'm'] ['1', 'm'] 2 _ (by decide)
  have hb : Reachable idleEnv flagBreak := Reachable.step _ _ _ hw
  have h := phase_bookkeeping_agree idleEnv flagBreak hb (Or.inr (by decide))
  exact ⟨⟨hb, by decide⟩, h.1.mpr (by decide), h.2.1 (by decide)⟩

/-! ## Notifications -/

theorem string_head_append (a b : String) (c : Char) (h : a.data.head? = some c) :
    (a ++ b).data.head? = some c := by
  rw [String.data_append]
  cases ha : a.data with
  | nil => rw [ha] at h; simp at h
  | cons x xs => rw [ha] at h; simpa using h

theorem breakOver_ne_allDone (x y : String) :
    "Break over! Starting session " ++ x ++ "/" ++ y ≠
      "All sessions completed! Great work! üéâ" := by
  intro h
  have h1 : ("Break over! Starting session " ++ x ++ "/" ++ y).data.head? = some 'B' :=
    string_head_append _ _ _ (string_head_append _ _ _ (string_head_append _ _ _ (by decide)))
  rw [h] at h1
  revert h1
  decide

theorem sendNotification_work (m : model) (hb : m.isBreak = false) :
    sendNotification m =
      { title := "Work Session Complete!",
        message := "Session " ++ toString (m.currentSession + 1) ++ "/" ++
          toString m.sessions ++ " done! Time for a break! ‚òï" } := by
  unfold sendNotification
  simp [hb]

theorem sendNotification_break (m : model) (hb : m.isBreak = true) :
    sendNotification m =
      { title := "Break Complete!",
        message :=
          if m.currentSession + 1 ≥ m.sessions then "All sessions completed! Great work! üéâ"
          else "Break over! Starting session " ++ toString (m.currentSession + 2) ++ "/" ++
            toString m.sessions } := by
  unfold sendNotification
  simp [hb]

/-- C17: a tick processed in a reachable Work or Break state that is not
paused sends exactly one notification when the recomputed remaining time is
`≤ 0` and none when it is `> 0`.  The notification is the one of the state
before the transition: when Work elapsed its title is `Work Session Complete!`
and its message names session `currentSession + 1` of `sessions`; when Break
elapsed its title is `Break Complete!`. -/
theorem tick_notifies (env : Env) (now : Int) (m : model) (t : Int)
    (hr : Reachable env m) (hs : m.state = StateTimer ∨ m.state = StateBreak)
    (hp : m.isPaused = false) :
    let r := Update env now m (.tickMsg t)
    (remainingAt now m ≤ 0 → r.notes = [sendNotification m]) ∧
    (0 < remainingAt now m → r.notes = []) ∧
    (m.state = StateTimer →
      (sendNotification m).title = "Work Session Complete!" ∧
      (sendNotification m).message =
        "Session " ++ toString (m.currentSession + 1) ++ "/" ++ toString m.sessions ++
          " done! Time for a break! ‚òï") ∧
    (m.state = StateBreak → (sendNotification m).title = "Break Complete!") := by
  intro r
  have hn : r.notes = if remainingAt now m ≤ 0 then [sendNotification m] else [] := by
    show (Update env now m (.tickMsg t)).notes = _
    rw [Update_tick_eq env now t m hs hp]
    exact updateTick_notes now m
  have hc := hr.coherent
  refine ⟨fun h => by rw [hn, if_pos h], fun h => by rw [hn, if_neg (by omega)], ?_, ?_⟩
  · intro hst
    rw [sendNotification_work m (hc.1 hst)]
    exact ⟨rfl, rfl⟩
  · intro hst
    rw [sendNotification_break m (hc.2 hst)]

/-- Witness of C17: at the tick after one minute the start state of
`pomo -t 1m -b 1m -s 2` sends the notification of session 1 of 2, and none at
the tick after one second. -/
theorem tick_notifies_witness :
    (Reachable idleEnv flagWork ∧ flagWork.state = StateTimer ∧ flagWork.isPaused = false) ∧
    (Update idleEnv (60 * Second) flagWork (.tickMsg 0)).notes =
      [{ title := "Work Session Complete!",
         message := "Session 1/2 done! Time for a break! ‚òï" }] ∧
    (Update idleEnv (1 * Second) flagWork (.tickMsg 0)).notes = [] := by
  have hw : Reachable idleEnv flagWork :=
    Reachable.start 0 ['1', 'm'] ['1', 'm'] 2 _ (by decide)
  have h1 := tick_notifies idleEnv (60 * Second) flagWork 0 hw (Or.inl (by decide)) (by decide)
  have h2 := tick_notifies idleEnv (1 * Second) flagWork 0 hw (Or.inl (by decide)) (by decide)
  exact ⟨⟨hw, by decide, by decide⟩, (h1.1 (by decide)).trans (by decide), h2.2.1 (by decide)⟩

/-- C19: when a Break phase elapses in a reachable state, the notification sent
on that tick agrees with the transition taken: its message is the
`All sessions completed` message if and only if the resulting phase is
Complete; otherwise the phase is Work and the message is
`Break over! Starting session k/N` with `N = sessions` and `k` the session
number `currentSession + 1` (after the increment) that the timer view shows in
the Work phase just entered. -/
theorem break_notification_agrees (env : Env) (now : Int) (m : model) (t : Int)
    (hr : Reachable env m) (hs : m.state = StateBreak) (hp : m.isPaused = false)
    (hrem : remainingAt now m ≤ 0) :
    let r := Update env now m (.tickMsg t)
    r.notes = [sendNotification m] ∧
    ((sendNotification m).message = "All sessions completed! Great work! üéâ" ↔
      r.m.state = StateComplete) ∧
    (r.m.state ≠ StateComplete →
      r.m.state = StateTimer ∧
      (sendNotification m).message =
        "Break over! Starting session " ++ toString (r.m.currentSession + 1) ++ "/" ++
          toString r.m.sessions ∧
      sessionText r.m =
        "Session " ++ toString (r.m.currentSession + 1) ++ " of " ++ toString r.m.sessions) := by
  intro r
  have hb := hr.coherent.2 hs
  have hU : r = updateTick now m := Update_tick_eq env now t m (Or.inr hs) hp
  have hn : r.notes = [sendNotification m] := by
    rw [hU, updateTick_notes now m, if_pos hrem]
  have hmsg := sendNotification_break m hb
  by_cases hge : m.currentSession + 1 ≥ m.sessions
  · have hm : r.m =
        { m with remaining := remainingAt now m, currentSession := m.currentSession + 1,
                 state := StateComplete } := by
      rw [hU]
      exact updateTick_last_m now m hrem hb hge
    have hst : r.m.state = StateComplete := by rw [hm]
    refine ⟨hn, ⟨fun _ => hst, fun _ => ?_⟩, fun hne => absurd hst hne⟩
    rw [hmsg]
    simp only [hge, if_true]
  · have hm : r.m =
        startTimer now
          { m with remaining := remainingAt now m, currentSession := m.currentSession + 1,
                   state := StateTimer } := by
      rw [hU]
      exact updateTick_next_m now m hrem hb hge
    have hst : r.m.state = StateTimer := by rw [hm]; rfl
    have hcs : r.m.currentSession = m.currentSession + 1 := by rw [hm]; rfl
    have hse : r.m.sessions = m.sessions := by rw [hm]; rfl
    have hmsg2 : (sendNotification m).message =
        "Break over! Starting session " ++ toString (m.currentSession + 2) ++ "/" ++
          toString m.sessions := by
      rw [hmsg]
      simp only [hge, if_false]
    refine ⟨hn, ⟨fun hall => ?_, fun hc => ?_⟩, fun _ => ⟨hst, ?_, rfl⟩⟩
    · rw [hmsg2] at hall
      exact absurd hall (breakOver_ne_allDone _ _)
    · rw [hst] at hc
      exact absurd hc (by decide)
    · rw [hmsg2, hcs, hse]
      have e : m.currentSession + 1 + 1 = m.currentSession + 2 := by ring
      rw [e]

/-- Witness of C19: the Break state of `pomo -t 1m -b 1m -s 2` at the tick
after two minutes goes to Work and announces session 2 of 2, the session the
timer view then shows. -/
theorem break_notification_agrees_witness :
    (Reachable idleEnv flagBreak ∧ flagBreak.state = StateBreak ∧ flagBreak.isPaused = false ∧
      remainingAt (120 * Second) flagBreak ≤ 0) ∧
    (Update idleEnv (120 * Second) flagBreak (.tickMsg 0)).m.state = StateTimer ∧
    (sendNotification flagBreak).message = "Break over! Starting session 2/2" ∧
    sessionText (Update idleEnv (120 * Second) flagBreak (.tickMsg 0)).m = "Session 2 of 2" := by
  have hw : Reachable idleEnv flagWork :=
    Reachable.start 0 ['1', 'm'] ['1', 'm'] 2 _ (by decide)
  have hb : Reachable idleEnv flagBreak := Reachable.step _ _ _ hw
  have h := break_notification_agrees idleEnv (120 * Second) flagBreak 0 hb (by decide)
    (by decide) (by decide)
  have h3 := h.2.2 (by decide)
  exact ⟨⟨hb, by decide, by decide, by decide⟩, h3.1, h3.2.1.trans (by decide),
    h3.2.2.trans (by decide)⟩

/-! ## The session count at the two starts -/

theorem Update_validated (env : Env) (now : Int) (m : model) (msg : Msg) (hc : Coherent m)
    (hv : Validated m) : Validated (Update env now m msg).m := by
  rcases Update_cases env now m msg hc with h | h | h | h
  · obtain ⟨h1, h2, -, -, h5, -⟩ := h
    intro hs
    rw [h1] at hs
    rw [h2, h5]
    exact hv hs
  · obtain ⟨-, -, -, -, h5, -, -, h8, -⟩ := h
    intro _
    rw [h5]
    exact ⟨by omega, le_refl _, h8⟩
  · obtain ⟨h1, -, -, -, -, h6, -, -, h9, -⟩ := h
    intro _
    rw [h6, h9]
    exact hv (Or.inl h1)
  · obtain ⟨h1, -, -, -, h5, -, -, h8, -, h10⟩ := h
    intro hs
    have hv1 := hv (Or.inr h1)
    rcases h10 with h10 | h10
    · rw [h10.2] at hs
      rcases hs with hs | hs <;> exact absurd hs (by decide)
    · rw [h5, h8]
      exact ⟨hv1.1, by omega, h10.1⟩

/-- The session count is valid in every state that a run reaches from a start
state in which it is valid: the form path, and the flag start when the sessions
flag is at least 1. -/
theorem run_validated (env : Env) (es : List (Int × Msg)) :
    ∀ m : model, Coherent m → Validated m → Validated (run env m es) := by
  induction es with
  | nil => intro m _ hv; exact hv
  | cons e es ih =>
    intro m hc hv
    exact ih _ (Update_coherent env e.1 m e.2 hc) (Update_validated env e.1 m e.2 hc hv)

theorem mainModel_validated (ff : FloatFrac) (now : Int) (tf bf : List Char) (sf : Int)
    (m : model) (h : mainModel ff now tf bf sf = some m) (hsf : 1 ≤ sf) : Validated m := by
  unfold mainModel at h
  simp only at h
  split_ifs at h
  · split at h
    · simp at h
    · split at h
      · simp at h
      · simp only [Option.some.injEq] at h
        subst h
        intro _
        exact ⟨hsf, le_refl _, by show (0 : Int) < sf; omega⟩
  · simp only [Option.some.injEq] at h
    subst h
    intro hs
    rcases hs with hs | hs <;> exact absurd hs (by decide)

/-- C14, evaluated at the flag start with a sessions flag of 0:
`pomo -t 1m -b 1m -s 0` starts in the
Work phase with `sessions = 0` and `currentSession = 0`, so neither
`sessions ≥ 1` nor `currentSession < sessions` holds in this reachable state;
the form rejects the same session count. -/
theorem flag_start_sessions_unvalidated :
    mainModel exactFrac 0 "1m".toList "1m".toList 0 = some flagZero ∧
    Reachable idleEnv flagZero ∧
    flagZero.state = StateTimer ∧ flagZero.sessions = 0 ∧ flagZero.currentSession = 0 ∧
    ¬ (1 ≤ flagZero.sessions) ∧ ¬ (flagZero.currentSession < flagZero.sessions) ∧
    (validateAndSetValues exactFrac (form "1m" "1m" "0")).1 = false :=
  ⟨by decide, Reachable.start 0 "1m".toList "1m".toList 0 _ (by decide), by decide, by decide,
    by decide, by decide, by decide, by decide⟩

/-! ## The sessions flag -/

theorem mainModel_flags (ff : FloatFrac) (now : Int) (tf bf : List Char) (sf timer breakDur : Int)
    (h1 : tf ≠ []) (h2 : bf ≠ []) (h3 : parseDuration ff tf = some timer)
    (h4 : parseDuration ff bf = some breakDur) :
    mainModel ff now tf bf sf =
      some (startTimer now
        { initialModel with timerDuration := timer, breakDuration := breakDur,
                            sessions := sf, currentSession := 0, state := StateTimer }) := by
  unfold mainModel
  simp only [h1, h2, ne_eq, not_false_eq_true, and_self, if_true, h3, h4]

theorem mainModel_form (ff : FloatFrac) (now : Int) (tf bf : List Char) (sf : Int)
    (h : tf = [] ∨ bf = []) : mainModel ff now tf bf sf = some initialModel := by
  have hn : ¬ (tf ≠ [] ∧ bf ≠ []) := by
    rintro ⟨a, b⟩
    rcases h with h | h
    · exact a h
    · exact b h
  unfold mainModel
  simp only [hn, if_false]

theorem submit_empty_sessions (env : Env) (now : Int) (m : model) (hs : m.state = StateInput)
    (he : m.sessionInput.value = []) (hok : (validateAndSetValues env.ff m).1 = true) :
    (Update env now m (.KeyMsg "enter")).m.state = StateTimer ∧
    (Update env now m (.KeyMsg "enter")).m.sessions = 4 := by
  obtain ⟨timer, breakDur, sessions, -, -, h3, -, hv⟩ := validateAndSetValues_true env.ff m hok
  have h4 : sessions = 4 := by
    rw [he] at h3
    have : orDefault [] ['4'] = ['4'] := rfl
    rw [this, Atoi_default_sessions] at h3
    simp only [Option.some.injEq] at h3
    exact h3.symm
  rw [Update_enter env now m hs, if_pos hok, hv, h4]
  exact ⟨rfl, rfl⟩

/-- C15 (amended): when both duration flags are given and parse, the program
starts in the Work phase with `timerDuration` and `breakDuration` the parsed
flag values, `sessions` the value of the sessions flag and `currentSession = 0`,
armed at the current clock reading.  When a duration flag is missing the
program starts in the Input phase whatever the sessions flag is, and a
successful submit with the sessions field left empty installs 4 sessions. -/
theorem sessions_flag_applies (env : Env) (now : Int) (tf bf : List Char) (sf : Int) :
    (∀ timer breakDur : Int, tf ≠ [] → bf ≠ [] → parseDuration env.ff tf = some timer →
      parseDuration env.ff bf = some breakDur →
      ∃ m0, mainModel env.ff now tf bf sf = some m0 ∧ m0.state = StateTimer ∧
        m0.timerDuration = timer ∧ m0.breakDuration = breakDur ∧ m0.sessions = sf ∧
        m0.currentSession = 0 ∧ m0.totalTime = timer ∧ m0.remaining = timer ∧
        m0.isPaused = false ∧ m0.startTime = now) ∧
    ((tf = [] ∨ bf = []) → mainModel env.ff now tf bf sf = some initialModel) ∧
    (∀ (t : Int) (m : model), m.state = StateInput → m.sessionInput.value = [] →
      (validateAndSetValues env.ff m).1 = true →
      (Update env t m (.KeyMsg "enter")).m.state = StateTimer ∧
      (Update env t m (.KeyMsg "enter")).m.sessions = 4) := by
  refine ⟨?_, mainModel_form env.ff now tf bf sf, ?_⟩
  · intro timer breakDur h1 h2 h3 h4
    exact ⟨_, mainModel_flags env.ff now tf bf sf timer breakDur h1 h2 h3 h4,
      rfl, rfl, rfl, rfl, rfl, rfl, rfl, rfl, rfl⟩
  · intro t m hs he hok
    exact submit_empty_sessions env t m hs he hok

/-- Witness of C15 (amended): `pomo -t 1m -b 1m -s 2` starts in Work with two
sessions; `pomo -s 6` starts with the empty form. -/
theorem sessions_flag_applies_witness :
    (∃ m0, mainModel idleEnv.ff 0 "1m".toList "1m".toList 2 = some m0 ∧
      m0.state = StateTimer ∧ m0.timerDuration = Minute ∧ m0.breakDuration = Minute ∧
      m0.sessions = 2 ∧ m0.currentSession = 0) ∧
    mainModel idleEnv.ff 0 [] [] 6 = some initialModel := by
  have h := sessions_flag_applies idleEnv 0 "1m".toList "1m".toList 2
  have h2 := (sessions_flag_applies idleEnv 0 [] [] 6).2.1 (Or.inl rfl)
  obtain ⟨m0, a1, a2, a3, a4, a5, a6, -⟩ :=
    h.1 Minute Minute (by decide) (by decide) (by decide) (by decide)
  exact ⟨⟨m0, a1, a2, a3, a4, a5, a6⟩, h2⟩

/-- Counterexample to C15 as stated: with `pomo -s 6` and no duration flags the
program starts with the empty form, and submitting it with the sessions field
left empty enters Work with 4 sessions, not 6; the same start follows when only
`-t` is given. -/
theorem sessions_flag_unused_in_form :
    mainModel exactFrac 0 [] [] 6 = some initialModel ∧
    mainModel exactFrac 0 "25m".toList [] 6 = some initialModel ∧
    initialModel.sessionInput.value = [] ∧
    (Update idleEnv 0 initialModel (.KeyMsg "enter")).m.state = StateTimer ∧
    (Update idleEnv 0 initialModel (.KeyMsg "enter")).m.sessions = 4 ∧
    (Update idleEnv 0 initialModel (.KeyMsg "enter")).m.sessions ≠ 6 := by
  decide

/-! ## The timer view: progress -/

theorem progressPercent_bounds (m : model) (h1 : 0 < m.totalTime)
    (h2 : m.remaining ≤ m.totalTime) (h3 : m.totalTime - m.remaining < 2 ^ 63) :
    ∃ p, progressPercent m = some p ∧ 0 ≤ p ∧ p ≤ 1 := by
  have hne : m.totalTime ≠ 0 := by omega
  have hq : (0 : ℚ) < (m.totalTime : ℚ) := by exact_mod_cast h1
  have he : (0 : ℚ) ≤ ((wrap64 (m.totalTime - m.remaining) : Int) : ℚ) := by
    have : (0 : Int) ≤ wrap64 (m.totalTime - m.remaining) := by
      rw [wrap64_eq _ (by omega) h3]
      omega
    exact_mod_cast this
  unfold progressPercent
  simp only [hne, if_false]
  refine ⟨_, rfl, ?_, ?_⟩
  · split_ifs
    · norm_num
    · exact div_nonneg he (le_of_lt hq)
  · split_ifs with h
    · exact le_refl _
    · exact le_of_not_gt h

/-- C18, evaluated at a work duration of zero: submitting the form with the work
duration `0` succeeds and enters the Work phase with `totalTime = 0` and
`remaining = 0`; the progress calculation of the timer view then divides
`totalTime - remaining = 0` by `totalTime = 0`, which is not defined. -/
theorem progress_undefined_zero_duration :
    (form "0" "" "").state = StateInput ∧
    (validateAndSetValues idleEnv.ff (form "0" "" "")).1 = true ∧
    zeroWork.state = StateTimer ∧ zeroWork.totalTime = 0 ∧ zeroWork.remaining = 0 ∧
    progressPercent zeroWork = none := by
  decide

/-! ## The completion summary -/

theorem Update_tick_times (env : Env) (N : Int) (t : Int) (m : model) (h : Running N m)
    (ha : Armed m) :
    (if elapses t m = true ∧ m.state = StateBreak then m.totalTime else 0) =
      ((if (Update env t m (.tickMsg t)).m.currentSession ≠ m.currentSession then 1 else 0 : Nat)
        : Int) * m.breakDuration ∧
    (if elapses t m = true ∧ m.state = StateTimer then m.totalTime else 0) =
      (((if elapses t m then 1 else 0 : Nat) : Int) -
        ((if (Update env t m (.tickMsg t)).m.currentSession ≠ m.currentSession then 1 else 0 : Nat)
          : Int)) * m.timerDuration := by
  obtain ⟨hN, hni, hw, hb, hc, hr⟩ := h
  by_cases hcomp : m.state = StateComplete
  · have hU : (Update env t m (.tickMsg t)).m = m := by
      unfold Update
      simp [hcomp]
    have hel : elapses t m = false := by simp [elapses, hcomp]
    rw [hU]
    simp [hel]
  · obtain ⟨hp, h0, hlt⟩ := hr hcomp
    have hst : m.state = StateTimer ∨ m.state = StateBreak := by
      cases hm : m.state <;> simp_all
    rw [Update_tick_eq env t t m hst hp]
    by_cases hrem : remainingAt t m ≤ 0
    · have hel : elapses t m = true := by
        rcases hst with hs | hs <;> simp [elapses, hs, hp, hrem]
      rcases hst with hs | hs
      · have hbf := hw hs
        have hcs : (updateTick t m).m.currentSession = m.currentSession := by
          rw [updateTick_work_m t m hrem hbf]
          rfl
        rw [hcs]
        simp [hel, hs, (ha.1 hs).2]
      · have hbt := hb hs
        have hcs : (updateTick t m).m.currentSession = m.currentSession + 1 := by
          by_cases hge : m.currentSession + 1 ≥ m.sessions
          · rw [updateTick_last_m t m hrem hbt hge]
          · rw [updateTick_next_m t m hrem hbt hge]
            rfl
        rw [hcs]
        simp [hel, hs, (ha.2 hs).2]
    · have hel : elapses t m = false := by simp [elapses, hrem]
      rw [updateTick_running_m t m hrem]
      simp [hel]

theorem run_ticks_times (env : Env) (N : Int) (ts : List Int) :
    ∀ m : model, Running N m → Armed m →
      phaseTimeRun env StateBreak m ts = (increments env m ts : Int) * m.breakDuration ∧
      phaseTimeRun env StateTimer m ts =
        ((elapsedCount env m ts : Int) - (increments env m ts : Int)) * m.timerDuration ∧
      (run env m (ticks ts)).timerDuration = m.timerDuration ∧
      (run env m (ticks ts)).breakDuration = m.breakDuration := by
  induction ts with
  | nil =>
    intro m _ _
    simp [phaseTimeRun, increments, elapsedCount, run, ticks]
  | cons t ts ih =>
    intro m h ha
    obtain ⟨h1, -⟩ := Update_tick_running env N t m h
    have ha1 := Update_armed env t m (.tickMsg t) ha
    obtain ⟨i1, i2, i3, i4⟩ := ih _ h1 ha1
    obtain ⟨s1, s2⟩ := Update_tick_times env N t m h ha
    have hplan : (Update env t m (.tickMsg t)).m.timerDuration = m.timerDuration ∧
        (Update env t m (.tickMsg t)).m.breakDuration = m.breakDuration := by
      by_cases hcond : (m.state = StateTimer ∨ m.state = StateBreak) ∧ m.isPaused = false
      · rw [Update_tick_eq env t t m hcond.1 hcond.2]
        exact ⟨(updateTick_plan t m).1, (updateTick_plan t m).2.1⟩
      · have hU : Update env t m (.tickMsg t) = { m := m, cmd := Cmd.nil, notes := [] } := by
          unfold Update
          simp only [hcond, if_false]
        rw [hU]
        exact ⟨rfl, rfl⟩
    have hrun : run env m (ticks (t :: ts)) =
        run env (Update env t m (.tickMsg t)).m (ticks ts) := by
      simp [run, ticks]
    refine ⟨?_, ?_, ?_, ?_⟩
    · simp only [phaseTimeRun, increments]
      rw [i1, s1, hplan.2]
      push_cast
      ring
    · simp only [phaseTimeRun, increments, elapsedCount]
      rw [i2, s2, hplan.1]
      push_cast
      ring
    · rw [hrun, i3, hplan.1]
    · rw [hrun, i4, hplan.2]

/-- In every plan run to completion from a successful submit, the work phases
that elapsed add up to `sessions * timerDuration` and the break phases that
elapsed add up to `sessions * breakDuration`, while the summary computes the
break time from `sessions - 1`. -/
theorem completed_run_summary (env : Env) (t0 : Int) (m : model) (ts : List Int)
    (hin : m.state = StateInput) (hok : (validateAndSetValues env.ff m).1 = true)
    (hel : (elapsedCount env (Update env t0 m (.KeyMsg "enter")).m ts : Int) =
      2 * (Update env t0 m (.KeyMsg "enter")).m.sessions) :
    let m0 := (Update env t0 m (.KeyMsg "enter")).m
    let fin := run env m0 (ticks ts)
    fin.state = StateComplete ∧ (viewComplete fin).sessions = m0.sessions ∧
    phaseTimeRun env StateTimer m0 ts = m0.sessions * m0.timerDuration ∧
    (viewComplete fin).focus = wrap64 (m0.timerDuration * m0.sessions) ∧
    phaseTimeRun env StateBreak m0 ts = m0.sessions * m0.breakDuration ∧
    (viewComplete fin).breaks = wrap64 (m0.breakDuration * (m0.sessions - 1)) := by
  intro m0 fin
  obtain ⟨timer, breakDur, sessions, -, -, -, hpos, hv⟩ := validateAndSetValues_true env.ff m hok
  have hm0 : m0 = startTimer t0 { (validateAndSetValues env.ff m).2 with state := StateTimer } := by
    show (Update env t0 m (.KeyMsg "enter")).m = _
    rw [Update_enter env t0 m hin]
    simp [hok]
  rw [hv] at hm0
  have hst : m0.state = StateTimer := by rw [hm0]; rfl
  have hcs : m0.currentSession = 0 := by rw [hm0]; rfl
  have hb : m0.isBreak = false := by rw [hm0]; rfl
  have hse : m0.sessions = sessions := by rw [hm0]; rfl
  have hrun : Running m0.sessions m0 := by
    refine ⟨rfl, by simp [hst], fun _ => hb, by simp [hst], by simp [hst], ?_⟩
    intro _
    exact ⟨by rw [hm0]; rfl, by omega, by omega⟩
  have harm : Armed m0 := by
    constructor
    · intro _
      exact ⟨hb, by rw [hm0]; rfl⟩
    · intro hs
      rw [hst] at hs
      exact absurd hs (by decide)
  obtain ⟨r1, r2, r3, -, -⟩ := run_ticks_running env m0.sessions ts m0 hrun
  obtain ⟨q1, q2, q3, q4⟩ := run_ticks_times env m0.sessions ts m0 hrun harm
  have hidx0 : phaseIdx m0 = 0 := by simp [phaseIdx, hst, hcs, hb]
  have hel2 : (elapsedCount env m0 ts : Int) = 2 * m0.sessions := hel
  have hidx : phaseIdx (run env m0 (ticks ts)) = 2 * m0.sessions := by
    rw [r2, hidx0, hel2]
    ring
  have hfin : (run env m0 (ticks ts)).state = StateComplete := by
    by_contra hne
    obtain ⟨-, h0, hlt⟩ := r1.2.2.2.2.2 hne
    have hse2 : (run env m0 (ticks ts)).sessions = m0.sessions := r1.1
    unfold phaseIdx at hidx
    simp only [hne, if_false] at hidx
    split_ifs at hidx <;> omega
  have hfc : (run env m0 (ticks ts)).currentSession = m0.sessions := r1.2.2.2.2.1 hfin
  have hinc : (increments env m0 ts : Int) = m0.sessions := by
    rw [r3, hcs] at hfc
    omega
  have hfs : fin.sessions = m0.sessions := r1.1
  refine ⟨hfin, hfs, ?_, ?_, ?_, ?_⟩
  · rw [q2, hel2, hinc]
    ring
  · show wrap64 (fin.timerDuration * fin.sessions) = _
    rw [hfs]
    show wrap64 ((run env m0 (ticks ts)).timerDuration * _) = _
    rw [q3]
  · rw [q1, hinc]
  · show wrap64 (fin.breakDuration * (fin.sessions - 1)) = _
    rw [hfs]
    show wrap64 ((run env m0 (ticks ts)).breakDuration * _) = _
    rw [q4]

set_option maxRecDepth 4096 in
/-- C16, evaluated at a completed run: the plan of one minute of work, one
minute of break and two sessions, run to completion by ticks after one, two,
three and four minutes.  Two work phases and two break phases of one minute
elapsed before Complete was reached; the summary reports 2 sessions and a focus
time of two minutes, but a break time of one minute. -/
theorem viewComplete_break_time_short :
    (run idleEnv demoWork (ticks demoTicks)).state = StateComplete ∧
    (viewComplete (run idleEnv demoWork (ticks demoTicks))).sessions = 2 ∧
    phaseTimeRun idleEnv StateTimer demoWork demoTicks = 2 * Minute ∧
    (viewComplete (run idleEnv demoWork (ticks demoTicks))).focus = 2 * Minute ∧
    phaseTimeRun idleEnv StateBreak demoWork demoTicks = 2 * Minute ∧
    (viewComplete (run idleEnv demoWork (ticks demoTicks))).breaks = 1 * Minute ∧
    (viewComplete (run idleEnv demoWork (ticks demoTicks))).breaks ≠
      phaseTimeRun idleEnv StateBreak demoWork demoTicks := by
  decide

/-! ## Schedules of ticks -/

end Pomo
